import Mathlib

/-!
# Plagiarism checker: similarity engine, patchwork detector and detection pipeline

A shallow embedding of `src/plagiarism_checker.cpp`.

* `size_t` values are integers in `[0, 2^64)`; every arithmetic result is reduced
  with `wrap` (reduction modulo `2^64`).  Tokens are C++ `int`s, modelled as `Int`;
  the implicit conversion `int → size_t` is reduction modulo `2^64`, and since that
  reduction is a ring homomorphism we reduce once per assignment.
* `std::vector<int>` is `List Int`.  A read `tokens[i]` is `tokens[i]?`: an index
  outside the vector makes the whole computation `none`.
* `std::unordered_set<size_t>` is a duplicate-free `List Int`.  The order in which a
  range-`for` visits the members of such a set is unspecified; it is the parameter
  `order` of `check_patchwork` and `check_plagiarism`, a function that lists the
  members of a set.
* A time point of `std::chrono::steady_clock` is its integer count of ticks.
* `check_plagiarism` returns the handles passed to `flag_submission`, in call order,
  together with the checker afterwards.
-/

namespace PlagiarismChecker

/-! ## `size_t` arithmetic -/

/-- The number of values of a 64-bit `size_t`. -/
def SIZE_MOD : Int := 18446744073709551616

/-- Reduction of an integer result to the range of `size_t`. -/
def wrap (x : Int) : Int := x % SIZE_MOD

/-- The assignment `hash = hash * 31 + tokens[j]`. -/
def push_token (hash tok : Int) : Int := wrap (hash * 31 + tok)

/-- The assignment `hash = (hash - tokens[i - 1] * power) * 31 + tokens[i + len - 1]`,
with `out = tokens[i - 1]` and `inc = tokens[i + len - 1]`. -/
def roll_token (hash power out inc : Int) : Int := wrap ((hash - out * power) * 31 + inc)

/-- The loop `for (int i = 0; i < n; ++i) power *= 31;` started from `power`. -/
def mul_power : Nat → Int → Int
  | 0, power => power
  | n + 1, power => mul_power n (wrap (power * 31))

/-! ## `std::unordered_set<size_t>` -/

/-- The member `insert` of the set. -/
def set_insert (s : List Int) (h : Int) : List Int :=
  if s.contains h then s else s ++ [h]

/-! ## `is_plagiarized` -/

/-- The threshold for long token matches. -/
def LONG_MATCH_LENGTH : Nat := 75

/-- The threshold for short token matches. -/
def MIN_MATCH_LENGTH : Nat := 15

/-- The number of short matches required. -/
def REQUIRED_MATCHES : Nat := 10

/-- The values taken by `i` in `for (size_t i = 0; i + len <= size; ++i)`. -/
def window_starts (size len : Nat) : List Nat := List.range (size + 1 - len)

/-- The inner loop `for (int j = 0; j < len; ++j) hash = hash * 31 + tokens[j];`. -/
def init_hash (tokens : List Int) (len : Nat) (hash : Int) : Option Int :=
  (List.range len).foldlM (fun h j => (tokens[j]?).map (push_token h)) hash

/-- The body of a hashing loop of `is_plagiarized` at index `i`: the hash is built from
the first `len` tokens when `i == 0` and updated from the previous one otherwise. -/
def next_hash (tokens : List Int) (len : Nat) (power : Int) (i : Nat) (hash : Int) :
    Option Int :=
  if i = 0 then init_hash tokens len hash
  else
    match tokens[i - 1]?, tokens[i + len - 1]? with
    | some out, some inc => some (roll_token hash power out inc)
    | _, _ => none

/-- The two loops over `old_tokens`: every window hash is inserted into the set. -/
def collect_hashes (tokens : List Int) (len : Nat) (power : Int) :
    List Nat → Int → List Int → Option (List Int)
  | [], _, set => some set
  | i :: rest, hash, set =>
    match next_hash tokens len power i hash with
    | none => none
    | some h => collect_hashes tokens len power rest h (set_insert set h)

/-- The long-match loop over `new_tokens`: `true` as soon as a window hash is in
`old_hashes`; `false` when the loop ends. -/
def scan_long (tokens old_hashes : List Int) (power : Int) : List Nat → Int → Option Bool
  | [], _ => some false
  | i :: rest, hash =>
    match next_hash tokens LONG_MATCH_LENGTH power i hash with
    | none => none
    | some h => if old_hashes.contains h then some true else scan_long tokens old_hashes power rest h

/-- The short-match loop over `new_tokens`: counts the windows whose hash is in
`short_hashes` and returns `true` as soon as the count reaches `REQUIRED_MATCHES`. -/
def scan_short (tokens short_hashes : List Int) (power : Int) :
    List Nat → Int → Nat → Option Bool
  | [], _, _ => some false
  | i :: rest, short_hash, match_count =>
    match next_hash tokens MIN_MATCH_LENGTH power i short_hash with
    | none => none
    | some h =>
      if short_hashes.contains h then
        if match_count + 1 ≥ REQUIRED_MATCHES then some true
        else scan_short tokens short_hashes power rest h (match_count + 1)
      else scan_short tokens short_hashes power rest h match_count

/-- The function `plagiarism_checker_t::is_plagiarized`. -/
def is_plagiarized (new_tokens old_tokens : List Int) : Option Bool :=
  let power := mul_power LONG_MATCH_LENGTH 1
  match collect_hashes old_tokens LONG_MATCH_LENGTH power
      (window_starts old_tokens.length LONG_MATCH_LENGTH) 0 [] with
  | none => none
  | some old_hashes =>
    match scan_long new_tokens old_hashes power
        (window_starts new_tokens.length LONG_MATCH_LENGTH) 0 with
    | none => none
    | some true => some true
    | some false =>
      match collect_hashes old_tokens MIN_MATCH_LENGTH power
          (window_starts old_tokens.length MIN_MATCH_LENGTH) 0 [] with
      | none => none
      | some short_hashes =>
        scan_short new_tokens short_hashes power
          (window_starts new_tokens.length MIN_MATCH_LENGTH) 0 0

/-! ## `check_patchwork` -/

/-- The number of unique matches required to detect patchwork plagiarism. -/
def REQUIRED_PATTERNS : Nat := 20

/-- The first loop of the lambda `compute_rolling_hash`:
`for (int i = 0; i < length; ++i) { hash = hash * 31 + tokens[i]; if (i > 0) power *= 31; }`
started from `hash = 0, power = 1`; the result is the pair `(hash, power)`. -/
def init_hash_power (tokens : List Int) (length : Nat) : Option (Int × Int) :=
  (List.range length).foldlM
    (fun hp i => (tokens[i]?).map
      (fun t => (push_token hp.1 t, if i > 0 then wrap (hp.2 * 31) else hp.2)))
    ((0, 1) : Int × Int)

/-- The second loop of `compute_rolling_hash`, over the values of `i` in
`for (size_t i = 1; i + length <= tokens.size(); ++i)`. -/
def roll_hashes (tokens : List Int) (length : Nat) (power : Int) :
    List Nat → Int → List Int → Option (List Int)
  | [], _, hashes => some hashes
  | i :: rest, hash, hashes =>
    match tokens[i - 1]?, tokens[i + length - 1]? with
    | some out, some inc =>
      roll_hashes tokens length power rest (roll_token hash power out inc)
        (set_insert hashes (roll_token hash power out inc))
    | _, _ => none

/-- The lambda `compute_rolling_hash` of `check_patchwork`. -/
def compute_rolling_hash (tokens : List Int) (length : Nat) : Option (List Int) :=
  match init_hash_power tokens length with
  | none => none
  | some (hash, power) =>
    roll_hashes tokens length power (List.range' 1 (tokens.length - length)) hash
      (set_insert [] hash)

/-- How the loop over `new_hashes` in `check_patchwork` ends: with `return true`, or by
running to its end with the current `unique_hashes`. -/
inductive Scan where
  | found : Scan
  | pending (unique_hashes : List Int) : Scan
deriving DecidableEq, Repr

/-- The inner loop `for (const auto& hash : new_hashes)` of `check_patchwork`, over the
hashes in the order in which the set is traversed. -/
def match_hashes (old_hashes : List Int) : List Int → List Int → Scan
  | [], unique_hashes => Scan.pending unique_hashes
  | hash :: rest, unique_hashes =>
    if old_hashes.contains hash then
      if (set_insert unique_hashes hash).length ≥ REQUIRED_PATTERNS then Scan.found
      else match_hashes old_hashes rest (set_insert unique_hashes hash)
    else match_hashes old_hashes rest unique_hashes

/-! ## Records and the checker state -/

/-- Modelled from the spec: the submission handle `submission_t` of `structures.hpp`,
which is not part of the sources.  A handle has an identity and optional references to a
student and to a professor collaborator (spec, section 6); the code file it names is
consumed by the external tokenizer only. -/
structure submission_t where
  id : Nat
  student : Option Nat
  professor : Option Nat
deriving DecidableEq, Repr

/-- The number of ticks of `std::chrono::steady_clock` in one millisecond (the clock
counts nanoseconds). -/
def TICKS_PER_MS : Int := 1000000

/-- The struct `SubmissionData`: the handle, its tokens (the result of the external
tokenizer) and the time point of the submission in clock ticks. -/
structure SubmissionData where
  submission : submission_t
  tokens : List Int
  timestamp : Int
deriving DecidableEq, Repr

/-- The data members of `plagiarism_checker_t`. -/
structure Checker where
  base_submissions_ : List SubmissionData
  submissions_ : List SubmissionData
  queue_ : List SubmissionData
  stop_thread_ : Bool
deriving DecidableEq, Repr

/-- The outer loop `for (const auto* existing : existing_submissions)` of
`check_patchwork`; `order` is the order in which an `unordered_set` is traversed. -/
def patchwork_loop (order : List Int → List Int) (new_hashes : List Int) :
    List SubmissionData → List Int → Option Bool
  | [], _ => some false
  | existing :: rest, unique_hashes =>
    match compute_rolling_hash existing.tokens MIN_MATCH_LENGTH with
    | none => none
    | some old_hashes =>
      match match_hashes old_hashes (order new_hashes) unique_hashes with
      | Scan.found => some true
      | Scan.pending unique_hashes' => patchwork_loop order new_hashes rest unique_hashes'

/-- The function `plagiarism_checker_t::check_patchwork`. -/
def check_patchwork (order : List Int → List Int) (new_tokens : List Int)
    (existing_submissions : List SubmissionData) : Option Bool :=
  match compute_rolling_hash new_tokens MIN_MATCH_LENGTH with
  | none => none
  | some new_hashes => patchwork_loop order new_hashes existing_submissions []

/-! ## `check_plagiarism` -/

/-- The value of `std::chrono::duration_cast<std::chrono::milliseconds>(d).count()` for
a difference `d` of two time points: division truncating toward zero. -/
def duration_cast_ms (d : Int) : Int := Int.tdiv d TICKS_PER_MS

/-- The loop over `base_submissions_`: `true` when some base submission matches (the
new submission is flagged and `check_plagiarism` returns). -/
def base_loop (new_submission : SubmissionData) : List SubmissionData → Option Bool
  | [] => some false
  | base :: rest =>
    match is_plagiarized new_submission.tokens base.tokens with
    | none => none
    | some true => some true
    | some false => base_loop new_submission rest

/-- How the loop over `submissions_` ends: by `return` after the listed calls of
`flag_submission`, or by running to its end with the collected vector `matches`. -/
inductive HistoryScan where
  | flagged (calls : List submission_t) : HistoryScan
  | completed (matches_ : List SubmissionData) : HistoryScan
deriving DecidableEq, Repr

/-- The loop `for (const auto& existing : submissions_)` of `check_plagiarism`. -/
def history_loop (new_submission : SubmissionData) :
    List SubmissionData → List SubmissionData → Option HistoryScan
  | [], matches_ => some (HistoryScan.completed matches_)
  | existing :: rest, matches_ =>
    match is_plagiarized new_submission.tokens existing.tokens with
    | none => none
    | some true =>
      if duration_cast_ms (new_submission.timestamp - existing.timestamp) < 1500 then
        some (HistoryScan.flagged [existing.submission, new_submission.submission])
      else
        some (HistoryScan.flagged [new_submission.submission])
    | some false => history_loop new_submission rest (matches_ ++ [existing])

/-- The result of one call of `check_plagiarism`: the handles passed to
`flag_submission`, in call order, and the checker afterwards. -/
structure Outcome where
  flagged : List submission_t
  checker : Checker
deriving DecidableEq, Repr

/-- The function `plagiarism_checker_t::check_plagiarism`. -/
def check_plagiarism (order : List Int → List Int) (c : Checker)
    (new_submission : SubmissionData) : Option Outcome :=
  match base_loop new_submission c.base_submissions_ with
  | none => none
  | some true => some ⟨[new_submission.submission], c⟩
  | some false =>
    match history_loop new_submission c.submissions_ [] with
    | none => none
    | some (HistoryScan.flagged calls) => some ⟨calls, c⟩
    | some (HistoryScan.completed matches_) =>
      match check_patchwork order new_submission.tokens matches_ with
      | none => none
      | some patchwork =>
        some ⟨if patchwork then [new_submission.submission] else [],
          { c with submissions_ := c.submissions_ ++ [new_submission] }⟩

/-! ## The values of the rolling hashes -/

/-- The successive values assigned to `hash` by a hashing loop of `is_plagiarized` that
runs over the indices given, started with the given value of `hash`. -/
def hash_values (tokens : List Int) (len : Nat) (power : Int) : List Nat → Int → List Int
  | [], _ => []
  | i :: rest, hash =>
    match next_hash tokens len power i hash with
    | none => []
    | some h => h :: hash_values tokens len power rest h

/-- The hashes `is_plagiarized` computes for the windows of `LONG_MATCH_LENGTH` tokens
of `tokens`, by start index. -/
def long_hashes (tokens : List Int) : List Int :=
  hash_values tokens LONG_MATCH_LENGTH (mul_power LONG_MATCH_LENGTH 1)
    (window_starts tokens.length LONG_MATCH_LENGTH) 0

/-- The hashes `is_plagiarized` computes for the windows of `MIN_MATCH_LENGTH` tokens of
`tokens`, by start index. -/
def short_hashes (tokens : List Int) : List Int :=
  hash_values tokens MIN_MATCH_LENGTH (mul_power LONG_MATCH_LENGTH 1)
    (window_starts tokens.length MIN_MATCH_LENGTH) 0

/-! ## Notions of the specification -/

/-- The window of `k` tokens of `t` that starts at index `i`. -/
def window (t : List Int) (i k : Nat) : List Int := (t.drop i).take k

/-- The contiguous windows of `k` tokens of `t`, by start index. -/
def windows (t : List Int) (k : Nat) : List (List Int) :=
  (window_starts t.length k).map (fun i => window t i k)

/-- The sequences `a` and `b` have a common contiguous run of `k` tokens, at any
offsets. -/
def shares_run (k : Nat) (a b : List Int) : Prop := ∃ w ∈ windows a k, w ∈ windows b k

instance (k : Nat) (a b : List Int) : Decidable (shares_run k a b) := by
  unfold shares_run; infer_instance

/-- The base-31 polynomial value of a window, computed from scratch by Horner's rule:
the sum of `w[j] * 31 ^ (w.length - 1 - j)`. -/
def poly_hash (w : List Int) : Int := w.foldl (fun h t => h * 31 + t) 0

/-- The hash of a window: its base-31 polynomial value as a `size_t`. -/
def window_hash (w : List Int) : Int := wrap (poly_hash w)

/-- The hashes of the windows of `k` tokens of `t`, by start index. -/
def window_hashes (t : List Int) (k : Nat) : List Int := (windows t k).map window_hash

/-- The number of distinct values that are the hash of a window of `MIN_MATCH_LENGTH`
tokens of `new_tokens` and also the hash of such a window of at least one of the
`priors`. -/
def common_hash_count (new_tokens : List Int) (priors : List SubmissionData) : Nat :=
  ((window_hashes new_tokens MIN_MATCH_LENGTH).dedup.filter
    (fun h => decide (∃ p ∈ priors, h ∈ window_hashes p.tokens MIN_MATCH_LENGTH))).length

/-- The integers `a, a + 1, ..., b` as tokens. -/
def token_range (a b : Nat) : List Int := (List.range' a (b + 1 - a)).map (fun k => (k : Int))

/-- A handle with identity `id` and no collaborators. -/
def handle (id : Nat) : submission_t := ⟨id, none, none⟩

/-- A checker with the given base corpus and history, an empty queue and no stop
request. -/
def checker_of (base history : List SubmissionData) : Checker := ⟨base, history, [], false⟩

/-! ## Concrete records -/

/-- The base record of the example of the specification: the tokens `1, ..., 80`. -/
def example_base : SubmissionData := ⟨handle 1, token_range 1 80, 0⟩

/-- The new record of the example of the specification: `9, 9, 9`, then the tokens
`1, ..., 75`, then `9, 9, 9`. -/
def example_new : SubmissionData :=
  ⟨handle 2, [9, 9, 9] ++ token_range 1 75 ++ [9, 9, 9], 5000000000⟩

/-- A record with the 24 tokens `1, ..., 24`, the handle `id` and the timestamp `ts`. -/
def short_record (id : Nat) (ts : Int) : SubmissionData := ⟨handle id, token_range 1 24, ts⟩

/-- A record with the 40 tokens `1, ..., 40`. -/
def source_record : SubmissionData := ⟨handle 1, token_range 1 40, 0⟩

/-- A record with the token `9` followed by the 40 tokens `1, ..., 40`. -/
def shifted_record : SubmissionData := ⟨handle 2, [9] ++ token_range 1 40, 5000000000⟩

/-- Two priors that together cover the windows of `source_record`: the tokens
`1, ..., 27` and the tokens `14, ..., 40`. -/
def patch_priors : List SubmissionData :=
  [⟨handle 3, token_range 1 27, 0⟩, ⟨handle 4, token_range 14 40, 1000⟩]

/-! ## `flag_submission` -/

/-- A call of a hook of an external collaborator: `student->flag_student(submission)`
or `professor->flag_professor(submission)`. -/
inductive Notification where
  | flag_student (student : Nat) (submission : submission_t) : Notification
  | flag_professor (professor : Nat) (submission : submission_t) : Notification
deriving DecidableEq, Repr

/-- The function `plagiarism_checker_t::flag_submission`: the hook calls it makes, in
call order. -/
def flag_submission (submission : submission_t) : List Notification :=
  (match submission.student with
    | some student => [Notification.flag_student student submission]
    | none => []) ++
  (match submission.professor with
    | some professor => [Notification.flag_professor professor submission]
    | none => [])

/-- The hook calls made by the calls of `flag_submission` for the handles listed. -/
def notifications (flagged : List submission_t) : List Notification :=
  (flagged.map flag_submission).flatten

/-- The number of calls of the student hook with the handle `submission`. -/
def student_calls (submission : submission_t) (calls : List Notification) : Nat :=
  calls.countP (fun call =>
    match call with
    | Notification.flag_student _ s => decide (s = submission)
    | Notification.flag_professor _ _ => false)

/-- The number of calls of the professor hook with the handle `submission`. -/
def professor_calls (submission : submission_t) (calls : List Notification) : Nat :=
  calls.countP (fun call =>
    match call with
    | Notification.flag_student _ _ => false
    | Notification.flag_professor _ s => decide (s = submission))

/-! ## `worker` -/

/-- The contract of `std::sort` with the comparator `a.timestamp < b.timestamp`: the
result is a rearrangement of the range in which no element is followed by one that the
comparator puts before it.  The order of records with equal timestamps is left open. -/
structure SortsByTimestamp (sort : List SubmissionData → List SubmissionData) : Prop where
  perm : ∀ l, (sort l).Perm l
  sorted : ∀ l, (sort l).Pairwise (fun a b => ¬ b.timestamp < a.timestamp)

/-- The loop `for (const auto& new_submission : current_batch)` of `worker`: the flag
calls of the successive calls of `check_plagiarism` and the checker afterwards. -/
def process_batch (order : List Int → List Int) :
    Checker → List SubmissionData → Option Outcome
  | c, [] => some ⟨[], c⟩
  | c, new_submission :: rest =>
    match check_plagiarism order c new_submission with
    | none => none
    | some out =>
      match process_batch order out.checker rest with
      | none => none
      | some out2 => some ⟨out.flagged ++ out2.flagged, out2.checker⟩

/-- Successive iterations of the loop of `worker`; `batches` lists the contents of
`current_batch` after each move of the queue, in drain order. -/
def worker_rounds (sort : List SubmissionData → List SubmissionData)
    (order : List Int → List Int) : Checker → List (List SubmissionData) → Option Outcome
  | c, [] => some ⟨[], c⟩
  | c, current_batch :: later =>
    match process_batch order c (sort current_batch) with
    | none => none
    | some out =>
      match worker_rounds sort order out.checker later with
      | none => none
      | some out2 => some ⟨out.flagged ++ out2.flagged, out2.checker⟩

/-- The checker together with the state of the worker thread and a record of what has
happened: `current_batch` holds the records of the drained batch that the loop of
`worker` has not reached yet, `exited` tells that `worker` has returned, `submitted`
lists the records pushed by `add_submission`, `checked` the records passed to
`check_plagiarism`, and `flagged` the handles passed to `flag_submission`. -/
structure Engine where
  checker : Checker
  current_batch : List SubmissionData
  exited : Bool
  submitted : List SubmissionData
  checked : List SubmissionData
  flagged : List submission_t
deriving DecidableEq, Repr

/-- The atomic actions of the threads: the critical section of `add_submission` for a
record, the critical section of the destructor, and the next action of the worker. -/
inductive Event where
  | add_submission (record : SubmissionData) : Event
  | destructor : Event
  | worker : Event
deriving DecidableEq, Repr

/-- One atomic action.  `add_submission` pushes its record to the queue (callers do not
use the checker once its destructor runs); the destructor sets `stop_thread_`; the
worker passes the next record of its batch to `check_plagiarism`, or, at the top of its
loop, waits (no action) while the queue is empty and no stop is requested, returns when
a stop is requested and the queue is empty, and otherwise moves the queue to
`current_batch`, clears it and sorts the batch.  The result is `none` when the action
is not enabled or reads outside a vector. -/
def engine_step (sort : List SubmissionData → List SubmissionData)
    (order : List Int → List Int) (e : Engine) : Event → Option Engine
  | Event.add_submission record =>
    if e.checker.stop_thread_ then none
    else some { e with
      checker := { e.checker with queue_ := e.checker.queue_ ++ [record] }
      submitted := e.submitted ++ [record] }
  | Event.destructor => some { e with checker := { e.checker with stop_thread_ := true } }
  | Event.worker =>
    if e.exited then none
    else
      match e.current_batch with
      | new_submission :: rest =>
        match check_plagiarism order e.checker new_submission with
        | none => none
        | some out => some { e with
            checker := out.checker
            current_batch := rest
            checked := e.checked ++ [new_submission]
            flagged := e.flagged ++ out.flagged }
      | [] =>
        if e.checker.queue_.isEmpty && !e.checker.stop_thread_ then none
        else if e.checker.stop_thread_ && e.checker.queue_.isEmpty then
          some { e with exited := true }
        else some { e with
          checker := { e.checker with queue_ := [] }
          current_batch := sort e.checker.queue_ }

/-- A schedule of atomic actions, run from `e`. -/
def engine_run (sort : List SubmissionData → List SubmissionData)
    (order : List Int → List Int) : Engine → List Event → Option Engine
  | e, [] => some e
  | e, event :: rest =>
    match engine_step sort order e event with
    | none => none
    | some e2 => engine_run sort order e2 rest

/-- The engine after construction with the base corpus `base`: nothing submitted, the
worker at the top of its loop. -/
def engine_init (base : List SubmissionData) : Engine :=
  ⟨checker_of base [], [], false, [], [], []⟩

/-- The from-scratch base-31 polynomial hash of the window of `len` tokens of `t` at
index `i`: the sum over `j < len` of `t[i + j] * 31 ^ (len - 1 - j)`, modulo `2 ^ 64`. -/
def scratch_hash (t : List Int) (i len : Nat) : Int :=
  wrap (((List.range len).map (fun j => t.getD (i + j) 0 * 31 ^ (len - 1 - j))).sum)

/-- An instance of the contract of `std::sort`: insertion sort by timestamp. -/
def sort_by_timestamp : List SubmissionData → List SubmissionData :=
  List.insertionSort (fun a b => a.timestamp ≤ b.timestamp)

/-- A handle with a student and a professor collaborator. -/
def full_handle (id : Nat) : submission_t := ⟨id, some 1, some 2⟩

/-- A record with the tokens `1, ..., 24` and a handle that has both collaborators. -/
def full_record (id : Nat) (ts : Int) : SubmissionData := ⟨full_handle id, token_range 1 24, ts⟩

/-- The first record of `history`, in storage order, that `is_plagiarized` reports as a
match of `new_submission`. -/
def first_history_match (new_submission : SubmissionData) (history : List SubmissionData) :
    Option SubmissionData :=
  history.find? (fun existing =>
    is_plagiarized new_submission.tokens existing.tokens == some true)

/-- No base record matches `n`, and the first History record that matches `n` carries the
same handle as `n` and a timestamp less than 1500 ms before that of `n`. -/
def matches_own_handle (c : Checker) (n : SubmissionData) : Bool :=
  c.base_submissions_.all (fun b => is_plagiarized n.tokens b.tokens != some true) &&
    match first_history_match n c.submissions_ with
    | some P =>
      decide (P.submission = n.submission) &&
        decide (n.timestamp - P.timestamp < 1500 * TICKS_PER_MS)
    | none => false

/-- A sequence of 76 tokens: `9`, then `1, ..., 75`. -/
def shifted_long : List Int := [9] ++ token_range 1 75

/-- A record with the tokens `1, ..., 24` submitted at time 0. -/
def early_record : SubmissionData := short_record 2 0

/-- A record with the tokens `1, ..., 24` submitted 2000 ms after `early_record`. -/
def late_record : SubmissionData := short_record 1 2000000000

/-- A schedule: two submissions, the later-stamped one pushed first, then the stop
request, then three actions of the worker (the drain and two calls of
`check_plagiarism`). -/
def shutdown_schedule : List Event :=
  [Event.add_submission late_record, Event.add_submission early_record, Event.destructor,
    Event.worker, Event.worker, Event.worker]

/-- The engine after `shutdown_schedule`: both records have been checked, in timestamp
order, the late one has been flagged, and the worker is at the top of its loop. -/
def shutdown_engine : Engine :=
  { checker := ⟨[], [early_record], [], true⟩
    current_batch := []
    exited := false
    submitted := [late_record, early_record]
    checked := [early_record, late_record]
    flagged := [late_record.submission] }

/-- The engine after `late_record` and then `early_record` have been pushed: both are in
the queue and the worker is at the top of its loop. -/
def queued_engine : Engine :=
  { checker := ⟨[], [], [late_record, early_record], false⟩
    current_batch := []
    exited := false
    submitted := [late_record, early_record]
    checked := []
    flagged := [] }

/-- What holds in every state of the engine: each submitted record is in exactly one
place, already passed to `check_plagiarism`, or in the drained batch, or in the queue;
and once the worker has returned, a stop was requested and nothing is left. -/
def engine_invariant (e : Engine) : Prop :=
  e.submitted.Perm (e.checked ++ e.current_batch ++ e.checker.queue_) ∧
    (e.exited = true →
      e.checker.stop_thread_ = true ∧ e.checker.queue_ = [] ∧ e.current_batch = [])

end PlagiarismChecker

/-!
# Lab 05: the binary max-heap

A shallow embedding of `src/lab05/lab05/heap/heap.cpp`.

* The array `store` is a `List Int`; a read `store[i]` is `store[i]?`, so that an index
  outside the array makes the computation `none`.  `sz` is the number of stored
  elements, which are `store[0], ..., store[sz - 1]`.
* Indices are natural numbers; an `int` index cannot overflow on a heap of fewer than
  `2^30` elements.
* The loop of `insert` and the recursion of `heapify` take a bound `fuel` on the number
  of rounds and return `none` when it is used up; `insert` and `deleteMax` pass the
  number of stored elements, which the theorems show to be enough.
* The member `append`, declared in `heap.h`, is not among the source files: it is a
  parameter of `insert`, with the contract `AppendsAtEnd`.
-/

namespace Lab05

/-- The data members of the class `Heap`, declared in `heap.h`: the array `store` and
the number `sz` of stored elements. -/
structure Heap where
  store : List Int
  sz : Nat
deriving DecidableEq, Repr

namespace Heap

/-- The function `Heap::parent`; for `i = 0` the C++ division `(0 - 1) / 2` truncates
to `0`, as the subtraction of natural numbers does here. -/
def parent (i : Nat) : Nat := (i - 1) / 2

/-- The function `Heap::left`. -/
def left (i : Nat) : Nat := 2 * i + 1

/-- The function `Heap::right`. -/
def right (i : Nat) : Nat := 2 * i + 2

/-- The function `Heap::max`. -/
def max (h : Heap) : Option Int := h.store[0]?

/-- The function `Heap::swap`. -/
def swap (h : Heap) (i j : Nat) : Option Heap :=
  match h.store[i]?, h.store[j]? with
  | some temp, some sj => some { h with store := (h.store.set i sj).set j temp }
  | _, _ => none

/-- The contract assumed of the member `append`, which is declared in `heap.h` and is not
among the source files: `append(v)` stores `v` at index `sz`, leaves the entries below
`sz` as they are, keeps the stored elements inside the array, and increments `sz`. -/
structure AppendsAtEnd (append : Heap → Int → Heap) : Prop where
  sz_append : ∀ h v, (append h v).sz = h.sz + 1
  fits : ∀ h v, h.sz ≤ h.store.length → (append h v).sz ≤ (append h v).store.length
  getD_append : ∀ h v k, h.sz ≤ h.store.length → k ≤ h.sz →
    (append h v).store.getD k 0 = if k = h.sz then v else h.store.getD k 0

/-- The loop `while (i > 0 && store[parent(i)] < store[i])` of `Heap::insert`; `fuel`
bounds the number of evaluations of the loop condition. -/
def insert_loop : Nat → Nat → Heap → Option Heap
  | 0, _, _ => none
  | fuel + 1, i, h =>
    if i > 0 then
      match h.store[parent i]?, h.store[i]? with
      | some p, some x =>
        if p < x then
          match h.swap i (parent i) with
          | none => none
          | some h2 => insert_loop fuel (parent i) h2
        else some h
      | _, _ => none
    else some h

/-- The function `Heap::insert`, given the member `append`; the loop gets as much fuel
as there are stored elements. -/
def insert (append : Heap → Int → Heap) (h : Heap) (v : Int) : Option Heap :=
  insert_loop (append h v).sz ((append h v).sz - 1) (append h v)

/-- The value of `largest` after the two `if` statements of `Heap::heapify`. -/
def largest_of (h : Heap) (i : Nat) : Option Nat :=
  match
    (if left i < h.sz then
      match h.store[left i]?, h.store[i]? with
      | some l, some x => some (if l > x then left i else i)
      | _, _ => none
    else some i) with
  | none => none
  | some largest =>
    if right i < h.sz then
      match h.store[right i]?, h.store[largest]? with
      | some r, some y => some (if r > y then right i else largest)
      | _, _ => none
    else some largest

/-- The function `Heap::heapify`; `fuel` bounds the depth of the recursion. -/
def heapify : Nat → Nat → Heap → Option Heap
  | 0, _, _ => none
  | fuel + 1, i, h =>
    match largest_of h i with
    | none => none
    | some largest =>
      if largest ≠ i then
        match h.swap i largest with
        | none => none
        | some h2 => heapify fuel largest h2
      else some h

/-- The function `Heap::deleteMax`; on an empty heap it reads `store[-1]`. -/
def deleteMax (h : Heap) : Option Heap :=
  if h.sz = 0 then none
  else
    match h.store[0]?, h.store[h.sz - 1]? with
    | some _, some last => heapify h.sz 0 { store := h.store.set 0 last, sz := h.sz - 1 }
    | _, _ => none

/-- The stored elements `store[0], ..., store[sz - 1]`. -/
def elements (h : Heap) : List Int := h.store.take h.sz

/-- The max-heap property of `store[0..sz)`: `store[parent(i)] >= store[i]` for every
`0 < i < sz`. -/
def is_max_heap (h : Heap) : Prop :=
  ∀ i < h.sz, 0 < i → h.store.getD i 0 ≤ h.store.getD (parent i) 0

instance (h : Heap) : Decidable (is_max_heap h) := by
  unfold is_max_heap; infer_instance

/-- The array after `swap(i, j)` on the array `l`. -/
def swap_store (l : List Int) (i j : Nat) : List Int :=
  (l.set i (l.getD j 0)).set j (l.getD i 0)

/-- The index exchange made by `swap(i, j)`. -/
def swap_index (i j k : Nat) : Nat := if k = j then i else if k = i then j else k

/-- The state of the array `l` with `n` stored elements on entry to `heapify(i)`: every
pair of a parent other than `i` and its child is in order, and every child of `i` is at
most the parent of `i`. -/
def down_ok (l : List Int) (n i : Nat) : Prop :=
  (∀ c < n, 0 < c → parent c ≠ i → l.getD c 0 ≤ l.getD (parent c) 0) ∧
    (0 < i → ∀ c < n, 0 < c → parent c = i → l.getD c 0 ≤ l.getD (parent i) 0)

/-- The state of the array `l` with `n` stored elements at the loop condition of
`insert` with index `i`: every pair of a parent and a child other than `i` is in order,
and every child of `i` is at most the parent of `i`. -/
def up_ok (l : List Int) (n i : Nat) : Prop :=
  (∀ c < n, 0 < c → c ≠ i → l.getD c 0 ≤ l.getD (parent c) 0) ∧
    (0 < i → ∀ c < n, 0 < c → parent c = i → l.getD c 0 ≤ l.getD (parent i) 0)

/-- An instance of the contract of `append`: `v` is written at index `sz` when the array
has room, and added at the end of the array otherwise. -/
def append_at_end (h : Heap) (v : Int) : Heap :=
  { store := if h.sz < h.store.length then h.store.set h.sz v else h.store ++ [v]
    sz := h.sz + 1 }

/-- A heap of six elements in an array of eight. -/
def sample : Heap := ⟨[9, 7, 8, 3, 5, 6, 0, 0], 6⟩

end Heap

end Lab05

namespace PlagiarismChecker

/-! # Theorems -/

/-! ## The loops of `is_plagiarized` -/

theorem mem_window_starts {size len i : Nat} :
    i ∈ window_starts size len ↔ i + len ≤ size := by
  unfold window_starts
  rw [List.mem_range]
  omega

theorem contains_eq_decide (s : List Int) (h : Int) : s.contains h = decide (h ∈ s) := by
  simp [List.contains]

theorem init_hash_eq (tokens : List Int) (len : Nat) (hash : Int)
    (hlen : len ≤ tokens.length) :
    init_hash tokens len hash = some ((tokens.take len).foldl push_token hash) := by
  unfold init_hash
  induction len with
  | zero => simp
  | succ k ih =>
    have hk : k < tokens.length := by omega
    rw [List.range_succ, List.foldlM_append, ih (by omega)]
    have ht : List.take (k + 1) tokens = List.take k tokens ++ [tokens[k]] := by
      rw [List.take_succ, List.getElem?_eq_getElem hk]
      rfl
    rw [ht, List.foldl_append]
    simp [List.getElem?_eq_getElem hk]

theorem next_hash_isSome (tokens : List Int) (len : Nat) (power : Int) (i : Nat)
    (hash : Int) (hpos : 0 < len) (hi : i + len ≤ tokens.length) :
    ∃ h, next_hash tokens len power i hash = some h := by
  unfold next_hash
  by_cases h0 : i = 0
  · rw [if_pos h0, init_hash_eq tokens len hash (by omega)]
    exact ⟨_, rfl⟩
  · rw [if_neg h0]
    have h1 : i - 1 < tokens.length := by omega
    have h2 : i + len - 1 < tokens.length := by omega
    rw [List.getElem?_eq_getElem h1, List.getElem?_eq_getElem h2]
    exact ⟨_, rfl⟩

theorem mem_set_insert {s : List Int} {h x : Int} :
    x ∈ set_insert s h ↔ x ∈ s ∨ x = h := by
  unfold set_insert
  rw [contains_eq_decide]
  by_cases hc : h ∈ s
  · simp only [hc, decide_True, if_true]
    constructor
    · exact fun hx => Or.inl hx
    · rintro (hx | hx)
      · exact hx
      · subst hx
        exact hc
  · simp [hc]

theorem mem_foldl_set_insert (l s : List Int) (x : Int) :
    x ∈ l.foldl set_insert s ↔ x ∈ s ∨ x ∈ l := by
  induction l generalizing s with
  | nil => simp
  | cons a l ih =>
    rw [List.foldl_cons, ih, mem_set_insert, List.mem_cons]
    tauto

theorem collect_hashes_eq (tokens : List Int) (len : Nat) (power : Int) (hpos : 0 < len)
    (idxs : List Nat) (hidx : ∀ i ∈ idxs, i + len ≤ tokens.length) (hash : Int)
    (set : List Int) :
    collect_hashes tokens len power idxs hash set =
      some ((hash_values tokens len power idxs hash).foldl set_insert set) := by
  induction idxs generalizing hash set with
  | nil => rfl
  | cons i rest ih =>
    obtain ⟨h, hh⟩ := next_hash_isSome tokens len power i hash hpos
      (hidx i (List.mem_cons_self i rest))
    simp only [collect_hashes, hash_values, hh]
    rw [ih (fun k hk => hidx k (List.mem_cons_of_mem i hk))]
    rfl

theorem scan_long_eq (tokens old_hashes : List Int) (power : Int) (idxs : List Nat)
    (hidx : ∀ i ∈ idxs, i + LONG_MATCH_LENGTH ≤ tokens.length) (hash : Int) :
    scan_long tokens old_hashes power idxs hash =
      some ((hash_values tokens LONG_MATCH_LENGTH power idxs hash).any
        (fun h => decide (h ∈ old_hashes))) := by
  induction idxs generalizing hash with
  | nil => rfl
  | cons i rest ih =>
    obtain ⟨h, hh⟩ := next_hash_isSome tokens LONG_MATCH_LENGTH power i hash (by decide)
      (hidx i (List.mem_cons_self i rest))
    simp only [scan_long, hash_values, hh, List.any_cons, contains_eq_decide]
    by_cases hc : h ∈ old_hashes
    · simp [hc]
    · rw [ih (fun k hk => hidx k (List.mem_cons_of_mem i hk))]
      simp [hc]

theorem scan_short_eq (tokens short : List Int) (power : Int) (idxs : List Nat)
    (hidx : ∀ i ∈ idxs, i + MIN_MATCH_LENGTH ≤ tokens.length) (hash : Int)
    (match_count : Nat) (hcount : match_count < REQUIRED_MATCHES) :
    scan_short tokens short power idxs hash match_count =
      some (decide (REQUIRED_MATCHES ≤ match_count +
        (hash_values tokens MIN_MATCH_LENGTH power idxs hash).countP
          (fun h => decide (h ∈ short)))) := by
  induction idxs generalizing hash match_count with
  | nil =>
    simp only [scan_short, hash_values, List.countP_nil, Nat.add_zero]
    simp [Nat.not_le.mpr hcount]
  | cons i rest ih =>
    obtain ⟨h, hh⟩ := next_hash_isSome tokens MIN_MATCH_LENGTH power i hash (by decide)
      (hidx i (List.mem_cons_self i rest))
    have hrest := fun k hk => hidx k (List.mem_cons_of_mem i hk)
    simp only [scan_short, hash_values, hh, contains_eq_decide]
    by_cases hc : h ∈ short
    · rw [List.countP_cons_of_pos _ _ (by simpa using hc)]
      simp only [hc, decide_True, if_true]
      by_cases hten : match_count + 1 ≥ REQUIRED_MATCHES
      · rw [if_pos hten]
        congr 1
        symm
        rw [decide_eq_true_iff]
        omega
      · have hadd : ∀ c, match_count + 1 + c = match_count + (c + 1) := fun c => by omega
        rw [if_neg hten, ih hrest h (match_count + 1) (Nat.not_le.mp hten), hadd]
    · rw [List.countP_cons_of_neg _ _ (by simpa using hc),
        ih hrest h match_count hcount]
      simp [hc]

/-- The result of `is_plagiarized` in terms of the hashes its loops compute: a long
window hash of `new_tokens` is among those of `old_tokens`, or at least
`REQUIRED_MATCHES` short windows of `new_tokens` have a hash among those of
`old_tokens`. -/
theorem is_plagiarized_eq (new_tokens old_tokens : List Int) :
    is_plagiarized new_tokens old_tokens =
      some ((long_hashes new_tokens).any (fun h => decide (h ∈ long_hashes old_tokens)) ||
        decide (REQUIRED_MATCHES ≤
          (short_hashes new_tokens).countP (fun h => decide (h ∈ short_hashes old_tokens)))) := by
  have hL : ∀ t : List Int, ∀ i ∈ window_starts t.length LONG_MATCH_LENGTH,
      i + LONG_MATCH_LENGTH ≤ t.length := fun t i hi => mem_window_starts.mp hi
  have hS : ∀ t : List Int, ∀ i ∈ window_starts t.length MIN_MATCH_LENGTH,
      i + MIN_MATCH_LENGTH ≤ t.length := fun t i hi => mem_window_starts.mp hi
  unfold is_plagiarized
  simp only []
  rw [collect_hashes_eq _ _ _ (by decide) _ (hL old_tokens)]
  simp only []
  rw [scan_long_eq _ _ _ _ (hL new_tokens)]
  simp only [mem_foldl_set_insert, List.not_mem_nil, false_or]
  cases hany : (long_hashes new_tokens).any (fun h => decide (h ∈ long_hashes old_tokens)) with
  | true =>
    unfold long_hashes at hany
    rw [hany]
    rfl
  | false =>
    unfold long_hashes at hany
    rw [hany]
    simp only []
    rw [collect_hashes_eq _ _ _ (by decide) _ (hS old_tokens)]
    simp only []
    rw [scan_short_eq _ _ _ _ (hS new_tokens) 0 0 (by decide)]
    simp only [mem_foldl_set_insert, List.not_mem_nil, false_or, Nat.zero_add, Bool.false_or]
    rfl

/-! ## The loops of `check_plagiarism` -/

theorem is_plagiarized_isSome (new_tokens old_tokens : List Int) :
    ∃ r, is_plagiarized new_tokens old_tokens = some r :=
  ⟨_, is_plagiarized_eq new_tokens old_tokens⟩

theorem duration_cast_ms_lt (d : Int) :
    duration_cast_ms d < 1500 ↔ d < 1500 * TICKS_PER_MS := by
  unfold duration_cast_ms TICKS_PER_MS
  rcases le_or_lt 0 d with h | h
  · rw [Int.tdiv_eq_ediv h (by norm_num)]
    omega
  · have h2 : d = -(-d) := by omega
    rw [h2, Int.neg_tdiv, Int.tdiv_eq_ediv (by omega) (by norm_num)]
    omega

theorem base_loop_cons (n b : SubmissionData) (rest : List SubmissionData) :
    base_loop n (b :: rest) =
      match is_plagiarized n.tokens b.tokens with
      | none => none
      | some true => some true
      | some false => base_loop n rest := rfl

theorem history_loop_cons (n e : SubmissionData) (rest matches_ : List SubmissionData) :
    history_loop n (e :: rest) matches_ =
      match is_plagiarized n.tokens e.tokens with
      | none => none
      | some true =>
        if duration_cast_ms (n.timestamp - e.timestamp) < 1500 then
          some (HistoryScan.flagged [e.submission, n.submission])
        else
          some (HistoryScan.flagged [n.submission])
      | some false => history_loop n rest (matches_ ++ [e]) := rfl

theorem base_loop_false (n : SubmissionData) (bs : List SubmissionData)
    (h : ∀ b ∈ bs, is_plagiarized n.tokens b.tokens = some false) :
    base_loop n bs = some false := by
  induction bs with
  | nil => rfl
  | cons b rest ih =>
    rw [base_loop_cons, h b (List.mem_cons_self b rest)]
    exact ih (fun x hx => h x (List.mem_cons_of_mem b hx))

theorem base_loop_true (n : SubmissionData) (bs : List SubmissionData)
    (h : ∃ b ∈ bs, is_plagiarized n.tokens b.tokens = some true) :
    base_loop n bs = some true := by
  induction bs with
  | nil => simp at h
  | cons b rest ih =>
    obtain ⟨r, hr⟩ := is_plagiarized_isSome n.tokens b.tokens
    cases r with
    | true => rw [base_loop_cons, hr]
    | false =>
      rw [base_loop_cons, hr]
      apply ih
      obtain ⟨x, hx, hxt⟩ := h
      rcases List.mem_cons.mp hx with rfl | hx
      · rw [hr] at hxt
        cases hxt
      · exact ⟨x, hx, hxt⟩

theorem base_loop_isSome (n : SubmissionData) (bs : List SubmissionData) :
    ∃ r, base_loop n bs = some r := by
  induction bs with
  | nil => exact ⟨false, rfl⟩
  | cons b rest ih =>
    obtain ⟨r, hr⟩ := is_plagiarized_isSome n.tokens b.tokens
    cases r with
    | true => exact ⟨true, by rw [base_loop_cons, hr]⟩
    | false =>
      obtain ⟨r2, hr2⟩ := ih
      exact ⟨r2, by rw [base_loop_cons, hr]; exact hr2⟩

theorem history_loop_completed (n : SubmissionData) (hist : List SubmissionData)
    (h : ∀ e ∈ hist, is_plagiarized n.tokens e.tokens = some false)
    (matches_ : List SubmissionData) :
    history_loop n hist matches_ = some (HistoryScan.completed (matches_ ++ hist)) := by
  induction hist generalizing matches_ with
  | nil => rw [List.append_nil]; rfl
  | cons e rest ih =>
    rw [history_loop_cons, h e (List.mem_cons_self e rest)]
    simp only []
    rw [ih (fun x hx => h x (List.mem_cons_of_mem e hx))]
    simp

theorem history_loop_first_match (n P : SubmissionData) (pre post : List SubmissionData)
    (hpre : ∀ e ∈ pre, is_plagiarized n.tokens e.tokens = some false)
    (hP : is_plagiarized n.tokens P.tokens = some true)
    (matches_ : List SubmissionData) :
    history_loop n (pre ++ P :: post) matches_ =
      some (HistoryScan.flagged
        (if n.timestamp - P.timestamp < 1500 * TICKS_PER_MS
          then [P.submission, n.submission] else [n.submission])) := by
  induction pre generalizing matches_ with
  | nil =>
    rw [List.nil_append, history_loop_cons, hP]
    simp only [duration_cast_ms_lt]
    by_cases hlt : n.timestamp - P.timestamp < 1500 * TICKS_PER_MS
    · rw [if_pos hlt, if_pos hlt]
    · rw [if_neg hlt, if_neg hlt]
  | cons e rest ih =>
    rw [List.cons_append, history_loop_cons, hpre e (List.mem_cons_self e rest)]
    exact ih (fun x hx => hpre x (List.mem_cons_of_mem e hx)) _

theorem history_loop_cases (n : SubmissionData) (hist matches_ : List SubmissionData) :
    (∃ calls, history_loop n hist matches_ = some (HistoryScan.flagged calls)) ∨
      history_loop n hist matches_ = some (HistoryScan.completed (matches_ ++ hist)) := by
  induction hist generalizing matches_ with
  | nil => right; rw [List.append_nil]; rfl
  | cons e rest ih =>
    obtain ⟨r, hr⟩ := is_plagiarized_isSome n.tokens e.tokens
    cases r with
    | true =>
      left
      rw [history_loop_cons, hr]
      simp only []
      split <;> exact ⟨_, rfl⟩
    | false =>
      rw [history_loop_cons, hr]
      simp only []
      rcases ih (matches_ ++ [e]) with h | h
      · exact Or.inl h
      · right
        rw [h]
        simp

/-! ## The detection pipeline -/

set_option maxRecDepth 100000 in
/-- C1, the example of the specification run on the code.  The new record contains the
run `1, ..., 75` of the base record, yet `is_plagiarized` reports no match against it
and `check_plagiarism` flags nothing and stores the record: the rolling update
subtracts the outgoing token with the multiplier `31^75`, so the hash of a window that
does not start the sequence depends on the tokens before it. -/
theorem spec_example_not_flagged :
    shares_run 75 example_new.tokens example_base.tokens ∧
    is_plagiarized example_new.tokens example_base.tokens = some false ∧
    ∀ order : List Int → List Int,
      check_plagiarism order (checker_of [example_base] []) example_new =
        some ⟨[], checker_of [example_base] [example_new]⟩ :=
  ⟨by decide, by decide, fun _ => by rfl⟩

/-- C2: when no base record matches and `P` is the first record of the history that
`is_plagiarized` matches with the new record `n`, `check_plagiarism` calls
`flag_submission` for `P` and `n` if `n.timestamp - P.timestamp` is below 1500 ms and
for `n` alone otherwise, and returns with the checker unchanged (whatever
`check_patchwork` would say); the comparison of the truncated millisecond count with
1500 is the comparison of the tick difference with 1500 ms. -/
theorem first_history_match_flags (order : List Int → List Int) (c : Checker)
    (n P : SubmissionData) (pre post : List SubmissionData)
    (hbase : ∀ b ∈ c.base_submissions_, is_plagiarized n.tokens b.tokens = some false)
    (hhist : c.submissions_ = pre ++ P :: post)
    (hpre : ∀ e ∈ pre, is_plagiarized n.tokens e.tokens = some false)
    (hP : is_plagiarized n.tokens P.tokens = some true) :
    check_plagiarism order c n =
        some ⟨if n.timestamp - P.timestamp < 1500 * TICKS_PER_MS
          then [P.submission, n.submission] else [n.submission], c⟩ ∧
      (duration_cast_ms (n.timestamp - P.timestamp) < 1500 ↔
        n.timestamp - P.timestamp < 1500 * TICKS_PER_MS) := by
  refine ⟨?_, duration_cast_ms_lt _⟩
  unfold check_plagiarism
  rw [base_loop_false n _ hbase, hhist, history_loop_first_match n P pre post hpre hP]

set_option maxRecDepth 100000 in
/-- Witness for C2: the history holds a clean record and then a record with the tokens
of the new one, submitted exactly 1500 ms earlier; only the new record is flagged. -/
theorem first_history_match_flags_witness :
    check_plagiarism id
        (checker_of [] [⟨handle 7, [1, 2, 3], 0⟩, short_record 1 0, short_record 3 0])
        (short_record 2 1500000000) =
      some ⟨[handle 2],
        checker_of [] [⟨handle 7, [1, 2, 3], 0⟩, short_record 1 0, short_record 3 0]⟩ :=
  (first_history_match_flags id
    (checker_of [] [⟨handle 7, [1, 2, 3], 0⟩, short_record 1 0, short_record 3 0])
    (short_record 2 1500000000) (short_record 1 0) [⟨handle 7, [1, 2, 3], 0⟩]
    [short_record 3 0] (by decide) rfl (by decide) (by decide)).1

set_option maxRecDepth 100000 in
/-- C3 fails when the stored record is the later one: `P` is in the history with a
timestamp 2000 ms after that of the new record `n`, and both are flagged. -/
theorem earlier_new_record_flagged :
    (short_record 1 2000000000).timestamp - (short_record 2 0).timestamp
        ≥ 1500 * TICKS_PER_MS ∧
    (short_record 2 0).submission ≠ (short_record 1 2000000000).submission ∧
    check_plagiarism id (checker_of [] [short_record 1 2000000000]) (short_record 2 0) =
      some ⟨[(short_record 1 2000000000).submission, (short_record 2 0).submission],
        checker_of [] [short_record 1 2000000000]⟩ :=
  ⟨by decide, by decide, by decide⟩

/-- C3 as amended: when the first history match `P` of the new record `n` is at least
1500 ms older than `n`, the only call of `flag_submission` is for `n`. -/
theorem older_history_match_flags_new_only (order : List Int → List Int) (c : Checker)
    (n P : SubmissionData) (pre post : List SubmissionData)
    (hbase : ∀ b ∈ c.base_submissions_, is_plagiarized n.tokens b.tokens = some false)
    (hhist : c.submissions_ = pre ++ P :: post)
    (hpre : ∀ e ∈ pre, is_plagiarized n.tokens e.tokens = some false)
    (hP : is_plagiarized n.tokens P.tokens = some true)
    (hlate : n.timestamp - P.timestamp ≥ 1500 * TICKS_PER_MS) :
    check_plagiarism order c n = some ⟨[n.submission], c⟩ := by
  unfold check_plagiarism
  rw [base_loop_false n _ hbase, hhist, history_loop_first_match n P pre post hpre hP,
    if_neg (not_lt.mpr hlate)]

set_option maxRecDepth 100000 in
/-- Witness for the amended C3: the stored record is 1500 ms older than the new one. -/
theorem older_history_match_flags_new_only_witness :
    check_plagiarism id (checker_of [] [short_record 1 0]) (short_record 2 1500000000) =
      some ⟨[handle 2], checker_of [] [short_record 1 0]⟩ :=
  older_history_match_flags_new_only id (checker_of [] [short_record 1 0])
    (short_record 2 1500000000) (short_record 1 0) [] [] (by decide) rfl (by decide)
    (by decide) (by decide)

set_option maxRecDepth 100000 in
/-- C4 on the code: a new record that matches a base record, and one that matches a
history record, are flagged and then `check_plagiarism` returns before the statement
that stores the record: the history afterwards is the history before. -/
theorem matched_record_not_stored :
    (∀ order : List Int → List Int,
      check_plagiarism order (checker_of [short_record 1 0] []) (short_record 2 5) =
        some ⟨[handle 2], checker_of [short_record 1 0] []⟩) ∧
    (∀ order : List Int → List Int,
      check_plagiarism order (checker_of [] [short_record 1 0]) (short_record 2 5) =
        some ⟨[handle 1, handle 2], checker_of [] [short_record 1 0]⟩) ∧
    (checker_of [short_record 1 0] []).submissions_ ≠
      (checker_of [short_record 1 0] []).submissions_ ++ [short_record 2 5] :=
  ⟨fun _ => by rfl, fun _ => by rfl, by decide⟩

set_option maxRecDepth 100000 in
/-- C5 on the code: the new sequence `9, 1, ..., 40` and the old sequence `1, ..., 40`
share no run of 75 tokens and 26 distinct windows of 15 tokens, and `is_plagiarized`
reports no match: within `is_plagiarized` the short hashes are updated with the
multiplier `31^75` of the long tier, so equal windows at different offsets get
different hashes. -/
theorem shared_short_windows_not_reported :
    ¬ shares_run 75 shifted_record.tokens source_record.tokens ∧
    10 ≤ ((windows shifted_record.tokens 15).dedup.filter
      (fun w => decide (w ∈ windows source_record.tokens 15))).length ∧
    is_plagiarized shifted_record.tokens source_record.tokens = some false :=
  ⟨by decide, by decide, by decide⟩

/-- C8: when `is_plagiarized` is false against every base record and every history
record, `check_plagiarism` runs `check_patchwork` on all history records in storage
order; the new record is flagged exactly when the result is `true`, no other handle is
flagged, and the new record is appended to the history.  (The call has no result exactly
when `check_patchwork` has none.) -/
theorem no_match_patchwork_decides (order : List Int → List Int) (c : Checker)
    (n : SubmissionData)
    (hbase : ∀ b ∈ c.base_submissions_, is_plagiarized n.tokens b.tokens = some false)
    (hhist : ∀ e ∈ c.submissions_, is_plagiarized n.tokens e.tokens = some false) :
    check_plagiarism order c n =
      (check_patchwork order n.tokens c.submissions_).map
        (fun patchwork => ⟨if patchwork then [n.submission] else [],
          { c with submissions_ := c.submissions_ ++ [n] }⟩) := by
  unfold check_plagiarism
  rw [base_loop_false n _ hbase, history_loop_completed n _ hhist, List.nil_append]
  simp only []
  cases check_patchwork order n.tokens c.submissions_ <;> rfl

set_option maxRecDepth 100000 in
/-- Witness for C8: the new record matches no base record and neither of the two history
records pairwise, `check_patchwork` is true on the two together, and the new record is
flagged and stored. -/
theorem no_match_patchwork_decides_witness :
    check_patchwork id shifted_record.tokens patch_priors = some true ∧
    check_plagiarism id (checker_of [example_base] patch_priors) shifted_record =
      some ⟨[shifted_record.submission],
        checker_of [example_base] (patch_priors ++ [shifted_record])⟩ :=
  ⟨by decide,
    no_match_patchwork_decides id (checker_of [example_base] patch_priors) shifted_record
      (by decide) (by decide)⟩

/-- C9: when `is_plagiarized` is true against some base record, `check_plagiarism` calls
`flag_submission` once, for the new record, and returns: no base handle and no history
handle is flagged, whatever the history holds. -/
theorem base_match_flags_new_only (order : List Int → List Int) (c : Checker)
    (n : SubmissionData)
    (h : ∃ b ∈ c.base_submissions_, is_plagiarized n.tokens b.tokens = some true) :
    check_plagiarism order c n = some ⟨[n.submission], c⟩ := by
  unfold check_plagiarism
  rw [base_loop_true n _ h]

set_option maxRecDepth 100000 in
/-- Witness for C9: the history holds a record that matches the new one and is 1 ms
older; only the new record is flagged. -/
theorem base_match_flags_new_only_witness :
    is_plagiarized (short_record 2 5000000000).tokens
        (short_record 3 4999000000).tokens = some true ∧
    check_plagiarism id (checker_of [example_base, short_record 1 0] [short_record 3 4999000000])
        (short_record 2 5000000000) =
      some ⟨[handle 2],
        checker_of [example_base, short_record 1 0] [short_record 3 4999000000]⟩ :=
  ⟨by decide,
    base_match_flags_new_only id
      (checker_of [example_base, short_record 1 0] [short_record 3 4999000000])
      (short_record 2 5000000000) ⟨short_record 1 0, by decide, by decide⟩⟩

/-- C10: a call of `check_plagiarism` that completes leaves the base corpus as it was
and the history either as it was or with the new record appended, so the history before
is a prefix of the history after and its length does not decrease.  The only calls that
do not complete are those in which `check_patchwork` reads outside a token vector. -/
theorem history_append_only (order : List Int → List Int) (c : Checker)
    (n : SubmissionData) :
    (∃ out, check_plagiarism order c n = some out ∧
        c.submissions_ <+: out.checker.submissions_ ∧
        c.submissions_.length ≤ out.checker.submissions_.length ∧
        out.checker.base_submissions_ = c.base_submissions_) ∨
      (check_plagiarism order c n = none ∧
        check_patchwork order n.tokens c.submissions_ = none) := by
  unfold check_plagiarism
  obtain ⟨r, hr⟩ := base_loop_isSome n c.base_submissions_
  rw [hr]
  cases r with
  | true => exact Or.inl ⟨_, rfl, List.prefix_refl _, le_refl _, rfl⟩
  | false =>
    rcases history_loop_cases n c.submissions_ [] with ⟨calls, h⟩ | h
    · rw [h]
      exact Or.inl ⟨_, rfl, List.prefix_refl _, le_refl _, rfl⟩
    · rw [h, List.nil_append]
      simp only []
      cases hp : check_patchwork order n.tokens c.submissions_ with
      | none => exact Or.inr ⟨rfl, rfl⟩
      | some b =>
        refine Or.inl ⟨_, rfl, List.prefix_append _ _, ?_, rfl⟩
        simp

/-! ## Polynomial hashes and the rolling update -/

theorem wrap_wrap (x : Int) : wrap (wrap x) = wrap x := by
  unfold wrap
  exact Int.emod_emod_of_dvd x (dvd_refl _)

theorem wrap_eq_of_modEq {a b : Int} (h : a ≡ b [ZMOD SIZE_MOD]) : wrap a = wrap b := h

theorem wrap_modEq (x : Int) : wrap x ≡ x [ZMOD SIZE_MOD] := Int.mod_modEq x SIZE_MOD

theorem mul_power_succ (n : Nat) (p : Int) :
    mul_power (n + 1) p = wrap (mul_power n p * 31) := by
  induction n generalizing p with
  | zero => rfl
  | succ k ih =>
    show mul_power (k + 1) (wrap (p * 31)) = wrap (mul_power (k + 1) p * 31)
    rw [ih]
    rfl

theorem mul_power_modEq (n : Nat) : mul_power n 1 ≡ 31 ^ n [ZMOD SIZE_MOD] := by
  induction n with
  | zero => exact Int.ModEq.refl _
  | succ k ih =>
    rw [mul_power_succ, pow_succ]
    exact (wrap_modEq _).trans (ih.mul_right 31)

theorem foldl_push_token (w : List Int) (h0 : Int) :
    w.foldl push_token (wrap h0) = wrap (w.foldl (fun h t => h * 31 + t) h0) := by
  induction w generalizing h0 with
  | nil => rfl
  | cons x rest ih =>
    rw [List.foldl_cons, List.foldl_cons]
    have hstep : push_token (wrap h0) x = wrap (h0 * 31 + x) :=
      wrap_eq_of_modEq (((wrap_modEq h0).mul_right 31).add_right x)
    rw [hstep, ih]

theorem foldl_push_token_zero (w : List Int) : w.foldl push_token 0 = window_hash w :=
  foldl_push_token w 0

theorem foldl_horner (w : List Int) (h0 : Int) :
    w.foldl (fun h t => h * 31 + t) h0 = h0 * 31 ^ w.length + poly_hash w := by
  unfold poly_hash
  induction w generalizing h0 with
  | nil => simp
  | cons x rest ih =>
    rw [List.foldl_cons, List.foldl_cons, ih, ih (0 * 31 + x), List.length_cons, pow_succ]
    ring

theorem poly_hash_cons (x : Int) (m : List Int) :
    poly_hash (x :: m) = x * 31 ^ m.length + poly_hash m := by
  have h := foldl_horner m (0 * 31 + x)
  unfold poly_hash at h ⊢
  rw [List.foldl_cons, h]
  ring

theorem poly_hash_append_singleton (m : List Int) (y : Int) :
    poly_hash (m ++ [y]) = poly_hash m * 31 + y := by
  unfold poly_hash
  rw [List.foldl_append]
  rfl

/-- One rolling update with the multiplier `31 ^ m.length` turns the hash of the window
`x :: m` into the hash of the window `m ++ [y]`. -/
theorem roll_token_window (x y power : Int) (m : List Int)
    (hpower : power ≡ 31 ^ m.length [ZMOD SIZE_MOD]) :
    roll_token (window_hash (x :: m)) power x y = window_hash (m ++ [y]) := by
  unfold roll_token window_hash
  apply wrap_eq_of_modEq
  rw [poly_hash_append_singleton]
  have h1 : wrap (poly_hash (x :: m)) - x * power ≡ poly_hash m [ZMOD SIZE_MOD] := by
    have h2 := (wrap_modEq (poly_hash (x :: m))).sub (hpower.mul_left x)
    have h3 : poly_hash (x :: m) - x * 31 ^ m.length = poly_hash m := by
      rw [poly_hash_cons]
      ring
    rw [h3] at h2
    exact h2
  exact (h1.mul_right 31).add_right y

/-! ## The lambda `compute_rolling_hash` -/

theorem init_hash_power_eq (tokens : List Int) (len : Nat) (hlen : len ≤ tokens.length) :
    init_hash_power tokens len =
      some ((tokens.take len).foldl push_token 0, mul_power (len - 1) 1) := by
  unfold init_hash_power
  induction len with
  | zero => rfl
  | succ k ih =>
    have hk : k < tokens.length := by omega
    have ht : List.take (k + 1) tokens = List.take k tokens ++ [tokens[k]] := by
      rw [List.take_succ, List.getElem?_eq_getElem hk]
      rfl
    rw [List.range_succ, List.foldlM_append, ih (by omega), ht, List.foldl_append]
    simp only [Option.some_bind, List.foldlM_cons, List.foldlM_nil,
      List.getElem?_eq_getElem hk, Option.map_some', Option.bind_eq_bind, Option.pure_def,
      List.foldl_cons, List.foldl_nil, Nat.add_sub_cancel]
    rcases Nat.eq_zero_or_pos k with h0 | hpos
    · subst h0
      rfl
    · rw [if_pos hpos]
      have hk1 := mul_power_succ (k - 1) 1
      rw [show k - 1 + 1 = k by omega] at hk1
      rw [hk1]

theorem window_length (t : List Int) (i k : Nat) (h : i + k ≤ t.length) :
    (window t i k).length = k := by
  unfold window
  rw [List.length_take, List.length_drop]
  omega

theorem window_cons (t : List Int) (i len : Nat) (hlen : 1 ≤ len)
    (h1 : i - 1 < t.length) (hi : 1 ≤ i) :
    window t (i - 1) len = t[i - 1] :: window t i (len - 1) := by
  unfold window
  rw [List.drop_eq_getElem_cons h1]
  have h2 : len = (len - 1) + 1 := by omega
  have h3 : i - 1 + 1 = i := by omega
  conv_lhs => rw [h2, List.take_succ_cons, h3]

theorem window_snoc (t : List Int) (i len : Nat) (hlen : 1 ≤ len)
    (h : i + len - 1 < t.length) :
    window t i len = window t i (len - 1) ++ [t[i + len - 1]] := by
  unfold window
  have h2 : len = (len - 1) + 1 := by omega
  have h4 : len - 1 < (List.drop i t).length := by
    rw [List.length_drop]
    omega
  conv_lhs => rw [h2, List.take_succ, List.getElem?_eq_getElem h4]
  congr 1
  simp only [Option.toList, List.getElem_drop]
  congr 2
  omega

/-- One step of the second loop of `compute_rolling_hash`: the hash of window `i - 1`
is updated to the hash of window `i`. -/
theorem roll_token_step (t : List Int) (i len : Nat) (power : Int) (hlen : 1 ≤ len)
    (hi : 1 ≤ i) (h1 : i - 1 < t.length) (h2 : i + len - 1 < t.length)
    (hpower : power ≡ 31 ^ (len - 1) [ZMOD SIZE_MOD]) :
    roll_token (window_hash (window t (i - 1) len)) power t[i - 1] t[i + len - 1] =
      window_hash (window t i len) := by
  rw [window_cons t i len hlen h1 hi, window_snoc t i len hlen h2]
  apply roll_token_window
  rw [window_length t i (len - 1) (by omega)]
  exact hpower

theorem roll_hashes_eq (t : List Int) (len : Nat) (power : Int) (hlen : 1 ≤ len)
    (hpower : power ≡ 31 ^ (len - 1) [ZMOD SIZE_MOD]) (m i0 : Nat) (hi0 : 1 ≤ i0)
    (hm : i0 + m + len ≤ t.length + 1) (hashes : List Int) :
    roll_hashes t len power (List.range' i0 m) (window_hash (window t (i0 - 1) len))
        hashes =
      some (((List.range' i0 m).map (fun i => window_hash (window t i len))).foldl
        set_insert hashes) := by
  induction m generalizing i0 hashes with
  | zero => rfl
  | succ k ih =>
    have h1 : i0 - 1 < t.length := by omega
    have h2 : i0 + len - 1 < t.length := by omega
    rw [List.range'_succ, roll_hashes, List.getElem?_eq_getElem h1,
      List.getElem?_eq_getElem h2]
    simp only [roll_token_step t i0 len power hlen hi0 h1 h2 hpower, List.map_cons,
      List.foldl_cons]
    have hnext := ih (i0 + 1) (by omega) (by omega) (set_insert hashes (window_hash (window t i0 len)))
    rw [Nat.add_sub_cancel] at hnext
    exact hnext

theorem compute_rolling_hash_eq (t : List Int) (len : Nat) (hlen : 1 ≤ len)
    (ht : len ≤ t.length) :
    compute_rolling_hash t len = some ((window_hashes t len).foldl set_insert []) := by
  unfold compute_rolling_hash
  rw [init_hash_power_eq t len ht]
  simp only [foldl_push_token_zero]
  have h0 : window_hash (List.take len t) = window_hash (window t (1 - 1) len) := by
    simp [window]
  rw [h0, roll_hashes_eq t len _ hlen (mul_power_modEq (len - 1)) (t.length - len) 1
    (le_refl 1) (by omega)]
  have hstarts : window_starts t.length len = 0 :: List.range' 1 (t.length - len) := by
    unfold window_starts
    rw [show t.length + 1 - len = (t.length - len) + 1 by omega, List.range_eq_range',
      List.range'_succ]
  unfold window_hashes windows
  rw [hstarts]
  simp only [List.map_cons, List.map_map, List.foldl_cons]
  rfl

theorem nodup_set_insert {s : List Int} (h : Int) (hs : s.Nodup) :
    (set_insert s h).Nodup := by
  unfold set_insert
  rw [contains_eq_decide]
  by_cases hc : h ∈ s
  · simpa [hc] using hs
  · simp only [hc, decide_False, Bool.false_eq_true, if_false]
    rw [List.nodup_append]
    exact ⟨hs, List.nodup_singleton h, by simpa using hc⟩

theorem nodup_foldl_set_insert (l s : List Int) (hs : s.Nodup) :
    (l.foldl set_insert s).Nodup := by
  induction l generalizing s with
  | nil => exact hs
  | cons a l ih => exact ih _ (nodup_set_insert a hs)

/-- On a sequence of at least 15 tokens `compute_rolling_hash` returns a duplicate-free
list whose members are the hashes of the windows of 15 tokens. -/
theorem compute_rolling_hash_spec (t : List Int) (ht : MIN_MATCH_LENGTH ≤ t.length) :
    ∃ s, compute_rolling_hash t MIN_MATCH_LENGTH = some s ∧ s.Nodup ∧
      ∀ h, h ∈ s ↔ h ∈ window_hashes t MIN_MATCH_LENGTH := by
  refine ⟨_, compute_rolling_hash_eq t MIN_MATCH_LENGTH (by decide) ht,
    nodup_foldl_set_insert _ _ List.nodup_nil, fun h => ?_⟩
  rw [mem_foldl_set_insert]
  simp

/-! ## The loops of `check_patchwork` -/

theorem toFinset_set_insert (s : List Int) (h : Int) :
    (set_insert s h).toFinset = insert h s.toFinset := by
  ext x
  rw [List.mem_toFinset, mem_set_insert, Finset.mem_insert, List.mem_toFinset]
  tauto

/-- The inner loop of `check_patchwork`, started with a duplicate-free `unique_hashes`
of fewer than `REQUIRED_PATTERNS` members: it returns `true` only if the hashes
gathered so far together with the traversed hashes found in `old_hashes` number at
least `REQUIRED_PATTERNS`, and otherwise ends with exactly these hashes gathered,
fewer than `REQUIRED_PATTERNS` of them. -/
theorem match_hashes_spec (old_hashes : List Int) (traversed : List Int)
    (unique_hashes : List Int) (hnodup : unique_hashes.Nodup)
    (hlen : unique_hashes.length < REQUIRED_PATTERNS) :
    (match_hashes old_hashes traversed unique_hashes = Scan.found ∧
        REQUIRED_PATTERNS ≤ (unique_hashes.toFinset ∪
          traversed.toFinset.filter (fun x => x ∈ old_hashes)).card) ∨
      (∃ u, match_hashes old_hashes traversed unique_hashes = Scan.pending u ∧
        u.Nodup ∧ u.length < REQUIRED_PATTERNS ∧
        u.toFinset = unique_hashes.toFinset ∪
          traversed.toFinset.filter (fun x => x ∈ old_hashes)) := by
  induction traversed generalizing unique_hashes with
  | nil =>
    right
    exact ⟨unique_hashes, rfl, hnodup, hlen, by simp⟩
  | cons h rest ih =>
    rw [match_hashes, contains_eq_decide]
    by_cases hc : h ∈ old_hashes
    · simp only [hc, decide_True, if_true]
      have hset : (set_insert unique_hashes h).toFinset ∪
          rest.toFinset.filter (fun x => x ∈ old_hashes) =
          unique_hashes.toFinset ∪
            (h :: rest).toFinset.filter (fun x => x ∈ old_hashes) := by
        ext x
        simp only [toFinset_set_insert, Finset.mem_union, Finset.mem_insert,
          Finset.mem_filter, List.mem_toFinset, List.mem_cons]
        constructor
        · rintro ((rfl | hx) | ⟨hx, hxo⟩)
          · exact Or.inr ⟨Or.inl rfl, hc⟩
          · exact Or.inl hx
          · exact Or.inr ⟨Or.inr hx, hxo⟩
        · rintro (hx | ⟨rfl | hx, hxo⟩)
          · exact Or.inl (Or.inr hx)
          · exact Or.inl (Or.inl rfl)
          · exact Or.inr ⟨hx, hxo⟩
      by_cases hfull : (set_insert unique_hashes h).length ≥ REQUIRED_PATTERNS
      · rw [if_pos hfull]
        left
        refine ⟨rfl, ?_⟩
        rw [← hset]
        calc REQUIRED_PATTERNS ≤ (set_insert unique_hashes h).length := hfull
          _ = (set_insert unique_hashes h).toFinset.card :=
            (List.toFinset_card_of_nodup (nodup_set_insert h hnodup)).symm
          _ ≤ _ := Finset.card_le_card Finset.subset_union_left
      · rw [if_neg hfull, ← hset]
        exact ih _ (nodup_set_insert h hnodup) (Nat.not_le.mp hfull)
    · simp only [hc, decide_False, Bool.false_eq_true, if_false]
      have hset : rest.toFinset.filter (fun x => x ∈ old_hashes) =
          (h :: rest).toFinset.filter (fun x => x ∈ old_hashes) := by
        ext x
        simp only [Finset.mem_filter, List.mem_toFinset, List.mem_cons]
        constructor
        · rintro ⟨hx, hxo⟩
          exact ⟨Or.inr hx, hxo⟩
        · rintro ⟨rfl | hx, hxo⟩
          · exact absurd hxo hc
          · exact ⟨hx, hxo⟩
      rw [← hset]
      exact ih _ hnodup hlen

/-- The outer loop of `check_patchwork` over priors of at least 15 tokens each: the
result is `true` exactly when the hashes gathered before, together with the hashes of
the new submission that are window hashes of some prior, number at least
`REQUIRED_PATTERNS`. -/
theorem patchwork_loop_spec (order : List Int → List Int)
    (horder : ∀ s, (order s).Perm s) (new_hashes : List Int)
    (priors : List SubmissionData)
    (hpriors : ∀ p ∈ priors, MIN_MATCH_LENGTH ≤ p.tokens.length)
    (unique_hashes : List Int) (hnodup : unique_hashes.Nodup)
    (hlen : unique_hashes.length < REQUIRED_PATTERNS) :
    patchwork_loop order new_hashes priors unique_hashes =
      some (decide (REQUIRED_PATTERNS ≤ (unique_hashes.toFinset ∪
        new_hashes.toFinset.filter
          (fun x => ∃ p ∈ priors, x ∈ window_hashes p.tokens MIN_MATCH_LENGTH)).card)) := by
  induction priors generalizing unique_hashes with
  | nil =>
    rw [patchwork_loop]
    congr 1
    symm
    rw [decide_eq_false_iff_not, Nat.not_le]
    simpa [List.toFinset_card_of_nodup hnodup] using hlen
  | cons p rest ih =>
    obtain ⟨old_hashes, hold, -, hmem⟩ :=
      compute_rolling_hash_spec p.tokens (hpriors p (List.mem_cons_self p rest))
    have hrest : ∀ q ∈ rest, MIN_MATCH_LENGTH ≤ q.tokens.length :=
      fun q hq => hpriors q (List.mem_cons_of_mem p hq)
    have htrav : (order new_hashes).toFinset = new_hashes.toFinset := by
      ext x
      rw [List.mem_toFinset, List.mem_toFinset, (horder new_hashes).mem_iff]
    rw [patchwork_loop, hold]
    simp only []
    rcases match_hashes_spec old_hashes (order new_hashes) unique_hashes hnodup hlen with
      ⟨hfound, hcard⟩ | ⟨u, hpending, hun, hul, huset⟩
    · rw [hfound]
      simp only []
      congr 1
      symm
      rw [decide_eq_true_iff]
      refine le_trans hcard (Finset.card_le_card ?_)
      rw [htrav]
      intro x
      simp only [Finset.mem_union, Finset.mem_filter, List.mem_toFinset, List.mem_cons,
        exists_eq_or_imp, hmem]
      tauto
    · rw [hpending]
      simp only []
      have hsets : u.toFinset ∪ new_hashes.toFinset.filter
            (fun x => ∃ q ∈ rest, x ∈ window_hashes q.tokens MIN_MATCH_LENGTH) =
          unique_hashes.toFinset ∪ new_hashes.toFinset.filter
            (fun x => ∃ q ∈ p :: rest, x ∈ window_hashes q.tokens MIN_MATCH_LENGTH) := by
        rw [huset, htrav]
        ext x
        simp only [Finset.mem_union, Finset.mem_filter, List.mem_toFinset, List.mem_cons,
          exists_eq_or_imp, hmem]
        tauto
      rw [ih hrest u hun hul, hsets]

theorem common_hash_count_eq_card (new_tokens : List Int) (priors : List SubmissionData) :
    common_hash_count new_tokens priors =
      ((window_hashes new_tokens MIN_MATCH_LENGTH).toFinset.filter
        (fun x => ∃ p ∈ priors, x ∈ window_hashes p.tokens MIN_MATCH_LENGTH)).card := by
  unfold common_hash_count
  rw [← List.toFinset_card_of_nodup ((List.nodup_dedup _).filter _)]
  congr 1
  ext x
  simp [List.mem_filter]

/-! ## The similarity engine and the patchwork detector -/

theorem mem_windows {t w : List Int} {k : Nat} :
    w ∈ windows t k ↔ ∃ i, i + k ≤ t.length ∧ window t i k = w := by
  unfold windows
  simp only [List.mem_map, mem_window_starts]

theorem check_patchwork_eq (order : List Int → List Int)
    (horder : ∀ s, (order s).Perm s) (new_tokens : List Int)
    (priors : List SubmissionData) (hnew : MIN_MATCH_LENGTH ≤ new_tokens.length)
    (hpriors : ∀ p ∈ priors, MIN_MATCH_LENGTH ≤ p.tokens.length) :
    check_patchwork order new_tokens priors =
      some (decide (REQUIRED_PATTERNS ≤ common_hash_count new_tokens priors)) := by
  obtain ⟨new_hashes, hnh, -, hmem⟩ := compute_rolling_hash_spec new_tokens hnew
  have hfin : new_hashes.toFinset = (window_hashes new_tokens MIN_MATCH_LENGTH).toFinset := by
    ext x
    rw [List.mem_toFinset, List.mem_toFinset, hmem]
  unfold check_patchwork
  rw [hnh]
  simp only []
  rw [patchwork_loop_spec order horder new_hashes priors hpriors [] List.nodup_nil
    (by decide), common_hash_count_eq_card, hfin]
  simp

theorem common_hash_count_perm (new_tokens : List Int)
    {priors priors2 : List SubmissionData} (hperm : priors2.Perm priors) :
    common_hash_count new_tokens priors2 = common_hash_count new_tokens priors := by
  unfold common_hash_count
  congr 2
  funext h
  simp only [hperm.mem_iff]

/-- C7: for a new sequence and priors of at least 15 tokens each, `check_patchwork`
returns true if and only if at least 20 distinct values are both the hash of a window of
15 tokens of the new sequence and the hash of a window of 15 tokens of some prior; the
result is the same for every reordering of the priors, and it is false for no priors.
The order in which the set of new hashes is traversed is arbitrary. -/
theorem check_patchwork_iff_common_hashes (order : List Int → List Int)
    (horder : ∀ s, (order s).Perm s) (new_tokens : List Int)
    (priors : List SubmissionData) (hnew : 15 ≤ new_tokens.length)
    (hpriors : ∀ p ∈ priors, 15 ≤ p.tokens.length) :
    check_patchwork order new_tokens priors =
        some (decide (20 ≤ common_hash_count new_tokens priors)) ∧
      (∀ priors2 : List SubmissionData, priors2.Perm priors →
        check_patchwork order new_tokens priors2 =
          check_patchwork order new_tokens priors) ∧
      check_patchwork order new_tokens [] = some false := by
  refine ⟨check_patchwork_eq order horder new_tokens priors hnew hpriors, ?_, ?_⟩
  · intro priors2 hperm
    rw [check_patchwork_eq order horder new_tokens priors hnew hpriors,
      check_patchwork_eq order horder new_tokens priors2 hnew
        (fun p hp => hpriors p (hperm.mem_iff.mp hp)),
      common_hash_count_perm new_tokens hperm]
  · obtain ⟨new_hashes, hnh, -, -⟩ := compute_rolling_hash_spec new_tokens hnew
    unfold check_patchwork
    rw [hnh]
    rfl

set_option maxRecDepth 100000 in
/-- Witness for C7: the new sequence `9, 1, ..., 40` shares 13 window hashes with each
of two priors, 26 in all, and `check_patchwork` returns true. -/
theorem check_patchwork_iff_common_hashes_witness :
    common_hash_count shifted_record.tokens patch_priors = 26 ∧
    check_patchwork id shifted_record.tokens patch_priors = some true ∧
    check_patchwork id shifted_record.tokens patch_priors.reverse = some true :=
  have h := check_patchwork_iff_common_hashes id (fun s => List.Perm.refl s)
    shifted_record.tokens patch_priors (by decide) (by decide)
  have hcount : common_hash_count shifted_record.tokens patch_priors = 26 := by decide
  ⟨hcount, by rw [h.1, hcount]; rfl,
    by rw [h.2.1 patch_priors.reverse (List.reverse_perm patch_priors), h.1, hcount]; rfl⟩

/-! ## The flag notifier -/

theorem student_calls_flag_submission (s h : submission_t) :
    student_calls h (flag_submission s) = if s = h ∧ s.student.isSome then 1 else 0 := by
  unfold student_calls flag_submission
  cases hs : s.student <;> cases hp : s.professor <;> by_cases heq : s = h <;>
    simp [heq, List.countP_cons]

theorem professor_calls_flag_submission (s h : submission_t) :
    professor_calls h (flag_submission s) =
      if s = h ∧ s.professor.isSome then 1 else 0 := by
  unfold professor_calls flag_submission
  cases hs : s.student <;> cases hp : s.professor <;> by_cases heq : s = h <;>
    simp [heq, List.countP_cons]

/-- C14: `flag_submission` calls the student hook once, with the handle itself, exactly
when the handle carries a student, and the professor hook once exactly when it carries
a professor; it makes no other call, and none at all for a handle with neither
collaborator. -/
theorem flag_submission_hooks (s : submission_t) :
    student_calls s (flag_submission s) = (if s.student.isSome then 1 else 0) ∧
    professor_calls s (flag_submission s) = (if s.professor.isSome then 1 else 0) ∧
    (∀ call ∈ flag_submission s,
      (∃ student, s.student = some student ∧
          call = Notification.flag_student student s) ∨
        (∃ professor, s.professor = some professor ∧
          call = Notification.flag_professor professor s)) ∧
    (flag_submission s).length =
      (if s.student.isSome then 1 else 0) + (if s.professor.isSome then 1 else 0) ∧
    (s.student = none → s.professor = none → flag_submission s = []) := by
  refine ⟨?_, ?_, ?_, ?_, ?_⟩
  · rw [student_calls_flag_submission]
    simp
  · rw [professor_calls_flag_submission]
    simp
  · intro call hcall
    unfold flag_submission at hcall
    cases hs : s.student <;> cases hp : s.professor <;> simp [hs, hp] at hcall ⊢ <;>
      exact hcall
  · unfold flag_submission
    cases hs : s.student <;> cases hp : s.professor <;> simp
  · intro hs hp
    unfold flag_submission
    rw [hs, hp]
    rfl

theorem student_calls_notifications_pair (a b s : submission_t) (hab : a ≠ b) :
    student_calls s (notifications [a, b]) ≤ 1 := by
  have h : student_calls s (notifications [a, b]) =
      student_calls s (flag_submission a) + student_calls s (flag_submission b) := by
    unfold notifications student_calls
    simp [List.countP_append]
  rw [h, student_calls_flag_submission, student_calls_flag_submission]
  by_cases ha : a = s <;> by_cases hb : b = s <;> simp [ha, hb]
  · exact absurd (ha.trans hb.symm) hab
  all_goals split <;> omega

theorem professor_calls_notifications_pair (a b s : submission_t) (hab : a ≠ b) :
    professor_calls s (notifications [a, b]) ≤ 1 := by
  have h : professor_calls s (notifications [a, b]) =
      professor_calls s (flag_submission a) + professor_calls s (flag_submission b) := by
    unfold notifications professor_calls
    simp [List.countP_append]
  rw [h, professor_calls_flag_submission, professor_calls_flag_submission]
  by_cases ha : a = s <;> by_cases hb : b = s <;> simp [ha, hb]
  · exact absurd (ha.trans hb.symm) hab
  all_goals split <;> omega

theorem calls_notifications_single (a s : submission_t) :
    student_calls s (notifications [a]) ≤ 1 ∧ professor_calls s (notifications [a]) ≤ 1 := by
  have h1 : notifications [a] = flag_submission a := by
    unfold notifications
    simp
  rw [h1, student_calls_flag_submission, professor_calls_flag_submission]
  constructor <;> split <;> omega

set_option maxRecDepth 100000 in
/-- C15 fails when the matched history record carries the handle of the new record: the
same handle is submitted again 1 ms later, `check_plagiarism` passes it to
`flag_submission` twice, and its student hook and its professor hook are called
twice. -/
theorem same_handle_flagged_twice :
    check_plagiarism id (checker_of [] [full_record 5 0]) (full_record 5 1000000) =
      some ⟨[full_handle 5, full_handle 5], checker_of [] [full_record 5 0]⟩ ∧
    student_calls (full_handle 5) (notifications [full_handle 5, full_handle 5]) = 2 ∧
    professor_calls (full_handle 5) (notifications [full_handle 5, full_handle 5]) = 2 :=
  ⟨by decide, by decide, by decide⟩

theorem base_loop_eq_any (n : SubmissionData) (bs : List SubmissionData) :
    base_loop n bs =
      some (bs.any (fun b => is_plagiarized n.tokens b.tokens == some true)) := by
  induction bs with
  | nil => rfl
  | cons b rest ih =>
    obtain ⟨r, hr⟩ := is_plagiarized_isSome n.tokens b.tokens
    rw [base_loop_cons, List.any_cons, hr]
    cases r with
    | true => rfl
    | false =>
      simp only []
      rw [ih]
      rfl

theorem history_loop_eq_first_match (n : SubmissionData)
    (hist matches_ : List SubmissionData) :
    history_loop n hist matches_ =
      some (match first_history_match n hist with
        | some P =>
          HistoryScan.flagged
            (if n.timestamp - P.timestamp < 1500 * TICKS_PER_MS then
              [P.submission, n.submission]
            else [n.submission])
        | none => HistoryScan.completed (matches_ ++ hist)) := by
  induction hist generalizing matches_ with
  | nil =>
    rw [List.append_nil]
    rfl
  | cons e rest ih =>
    obtain ⟨r, hr⟩ := is_plagiarized_isSome n.tokens e.tokens
    have hfind : first_history_match n (e :: rest) =
        if r = true then some e else first_history_match n rest := by
      unfold first_history_match
      rw [List.find?_cons, hr]
      cases r <;> rfl
    rw [history_loop_cons, hfind, hr]
    cases r with
    | true =>
      simp only [duration_cast_ms_lt, if_true]
      split <;> rfl
    | false =>
      simp only []
      rw [ih, List.append_assoc]
      rfl

/-- The handles that one call of `check_plagiarism` passes to `flag_submission`. -/
theorem check_plagiarism_flagged_eq (order : List Int → List Int) (c : Checker)
    (n : SubmissionData) (out : Outcome) (h : check_plagiarism order c n = some out) :
    (matches_own_handle c n = true ∧ out.flagged = [n.submission, n.submission]) ∨
    (matches_own_handle c n = false ∧
      (out.flagged = [] ∨ out.flagged = [n.submission] ∨
        ∃ P : SubmissionData, P.submission ≠ n.submission ∧
          out.flagged = [P.submission, n.submission])) := by
  unfold check_plagiarism at h
  rw [base_loop_eq_any, history_loop_eq_first_match] at h
  unfold matches_own_handle
  cases hb : c.base_submissions_.any
      (fun b => is_plagiarized n.tokens b.tokens == some true) with
  | true =>
    rw [hb] at h
    simp only [Option.some.injEq] at h
    subst h
    right
    refine ⟨?_, Or.inr (Or.inl rfl)⟩
    rw [Bool.and_eq_false_iff]
    left
    rw [List.any_eq_true] at hb
    obtain ⟨b, hbm, hbt⟩ := hb
    rw [List.all_eq_false]
    exact ⟨b, hbm, by simpa using hbt⟩
  | false =>
    rw [hb] at h
    have hall : c.base_submissions_.all
        (fun b => is_plagiarized n.tokens b.tokens != some true) = true := by
      rw [List.all_eq_true]
      intro b hbm
      rw [List.any_eq_false] at hb
      simpa using hb b hbm
    rw [hall, Bool.true_and]
    cases hf : first_history_match n c.submissions_ with
    | some P =>
      rw [hf] at h
      simp only [Option.some.injEq] at h
      subst h
      simp only []
      by_cases hw : n.timestamp - P.timestamp < 1500 * TICKS_PER_MS
      · rw [if_pos hw]
        by_cases hs : P.submission = n.submission
        · left
          exact ⟨by simp [hs, hw], by rw [hs]⟩
        · right
          exact ⟨by simp [hs], Or.inr (Or.inr ⟨P, hs, rfl⟩)⟩
      · rw [if_neg hw]
        right
        exact ⟨by simp [hw], Or.inr (Or.inl rfl)⟩
    | none =>
      rw [hf] at h
      simp only [] at h
      right
      refine ⟨rfl, ?_⟩
      cases hp : check_patchwork order n.tokens ([] ++ c.submissions_) with
      | none =>
        rw [hp] at h
        cases h
      | some b =>
        rw [hp] at h
        simp only [Option.some.injEq] at h
        subst h
        cases b
        · exact Or.inl rfl
        · exact Or.inr (Or.inl rfl)

theorem student_calls_notifications_twice (a s : submission_t) :
    student_calls s (notifications [a, a]) = if a = s ∧ a.student.isSome then 2 else 0 := by
  have h : student_calls s (notifications [a, a]) =
      student_calls s (flag_submission a) + student_calls s (flag_submission a) := by
    unfold notifications student_calls
    simp [List.countP_append]
  rw [h, student_calls_flag_submission]
  split <;> rfl

theorem professor_calls_notifications_twice (a s : submission_t) :
    professor_calls s (notifications [a, a]) =
      if a = s ∧ a.professor.isSome then 2 else 0 := by
  have h : professor_calls s (notifications [a, a]) =
      professor_calls s (flag_submission a) + professor_calls s (flag_submission a) := by
    unfold notifications professor_calls
    simp [List.countP_append]
  rw [h, professor_calls_flag_submission]
  split <;> rfl

/-- C15 as amended: during one call of `check_plagiarism` the student hook and the
professor hook of every handle are called at most once, except for a hook that the handle
of the new record carries when no base record matches the new record and the first
History record that matches it carries its handle and is less than 1500 ms older; in that
case, and only in that case, the hook is called twice. -/
theorem hooks_called_at_most_once (order : List Int → List Int) (c : Checker)
    (n : SubmissionData) (out : Outcome) (h : check_plagiarism order c n = some out)
    (s : submission_t) :
    (student_calls s (notifications out.flagged) ≤ 1 ↔
      ¬ (s = n.submission ∧ s.student.isSome = true ∧ matches_own_handle c n = true)) ∧
    (professor_calls s (notifications out.flagged) ≤ 1 ↔
      ¬ (s = n.submission ∧ s.professor.isSome = true ∧ matches_own_handle c n = true)) ∧
    student_calls s (notifications out.flagged) ≤ 2 ∧
    professor_calls s (notifications out.flagged) ≤ 2 := by
  rcases check_plagiarism_flagged_eq order c n out h with ⟨hm, hf⟩ | ⟨hm, hf⟩
  · rw [hf, student_calls_notifications_twice, professor_calls_notifications_twice, hm]
    refine ⟨?_, ?_, ?_, ?_⟩
    · by_cases hc : n.submission = s ∧ n.submission.student.isSome = true
      · rw [if_pos hc]
        obtain ⟨h1, h2⟩ := hc
        subst h1
        simp [h2]
      · rw [if_neg hc]
        simp only [Nat.zero_le, true_iff]
        rintro ⟨h1, h2, -⟩
        subst h1
        exact hc ⟨rfl, h2⟩
    · by_cases hc : n.submission = s ∧ n.submission.professor.isSome = true
      · rw [if_pos hc]
        obtain ⟨h1, h2⟩ := hc
        subst h1
        simp [h2]
      · rw [if_neg hc]
        simp only [Nat.zero_le, true_iff]
        rintro ⟨h1, h2, -⟩
        subst h1
        exact hc ⟨rfl, h2⟩
    · split <;> omega
    · split <;> omega
  · have hle : student_calls s (notifications out.flagged) ≤ 1 ∧
        professor_calls s (notifications out.flagged) ≤ 1 := by
      rcases hf with h0 | h1 | ⟨P, hne, h2⟩
      · rw [h0]
        exact ⟨Nat.zero_le _, Nat.zero_le _⟩
      · rw [h1]
        exact calls_notifications_single _ _
      · rw [h2]
        exact ⟨student_calls_notifications_pair _ _ s hne,
          professor_calls_notifications_pair _ _ s hne⟩
    rw [hm]
    refine ⟨?_, ?_, by omega, by omega⟩
    · simp [hle.1]
    · simp [hle.2]

set_option maxRecDepth 100000 in
/-- Witness for the amended C15: the History holds a record with another handle and then
one with the handle of the new record, both matching it less than 1500 ms before it; the
first one is flagged together with the new record, and each hook of the handle of the new
record is called once. -/
theorem hooks_called_at_most_once_witness :
    check_plagiarism id (checker_of [] [full_record 5 0, full_record 6 0])
        (full_record 6 1000000) =
      some ⟨[full_handle 5, full_handle 6],
        checker_of [] [full_record 5 0, full_record 6 0]⟩ ∧
    student_calls (full_handle 6) (notifications [full_handle 5, full_handle 6]) ≤ 1 ∧
    professor_calls (full_handle 6) (notifications [full_handle 5, full_handle 6]) ≤ 1 :=
  have hrun : check_plagiarism id (checker_of [] [full_record 5 0, full_record 6 0])
      (full_record 6 1000000) =
      some ⟨[full_handle 5, full_handle 6],
        checker_of [] [full_record 5 0, full_record 6 0]⟩ := by decide
  have hall := hooks_called_at_most_once id
    (checker_of [] [full_record 5 0, full_record 6 0]) (full_record 6 1000000) _ hrun
    (full_handle 6)
  ⟨hrun, hall.1.mpr (by decide), hall.2.1.mpr (by decide)⟩

/-! ## Rolling hashes against from-scratch hashes -/

theorem poly_hash_eq_sum (w : List Int) :
    poly_hash w =
      ((List.range w.length).map (fun j => w.getD j 0 * 31 ^ (w.length - 1 - j))).sum := by
  induction w with
  | nil => rfl
  | cons x m ih =>
    rw [poly_hash_cons, ih, List.length_cons, List.range_succ_eq_map, List.map_cons,
      List.sum_cons, List.map_map]
    congr 1
    apply congrArg
    apply List.map_congr_left
    intro j _
    simp only [Function.comp, List.getD_cons_succ]
    congr 2
    omega

theorem getD_window (t : List Int) (i len j : Nat) (hj : j < len) :
    (window t i len).getD j 0 = t.getD (i + j) 0 := by
  unfold window
  rw [List.getD_eq_getElem?_getD, List.getD_eq_getElem?_getD, List.getElem?_take_of_lt hj,
    List.getElem?_drop]

/-- The hash of a window, computed by Horner's rule, is the polynomial sum of the
specification. -/
theorem window_hash_eq_scratch_hash (t : List Int) (i len : Nat) (h : i + len ≤ t.length) :
    window_hash (window t i len) = scratch_hash t i len := by
  unfold window_hash scratch_hash
  rw [poly_hash_eq_sum, window_length t i len h]
  congr 2
  apply List.map_congr_left
  intro j hj
  rw [getD_window t i len j (List.mem_range.mp hj)]

set_option maxRecDepth 100000 in
/-- C17 on the code, for the 76 tokens `9, 1, ..., 75`: the hash recorded for window 0
is the from-scratch hash, the hash recorded for window 1 is not, and it differs from
the hash recorded for the same 75 tokens when they start a sequence.  The multiplier of
the update is `31^75`, not `31^74`. -/
theorem long_rolling_hash_not_window_hash :
    (long_hashes shifted_long)[0]? = some (scratch_hash shifted_long 0 75) ∧
    (long_hashes shifted_long)[1]? ≠ some (scratch_hash shifted_long 1 75) ∧
    window shifted_long 1 75 = window (token_range 1 75) 0 75 ∧
    (long_hashes shifted_long)[1]? ≠ (long_hashes (token_range 1 75))[0]? ∧
    mul_power LONG_MATCH_LENGTH 1 = wrap (31 ^ 75) ∧
    wrap (31 ^ 75) ≠ wrap (31 ^ 74) :=
  ⟨by decide, by decide, by decide, by decide, by decide, by decide⟩

set_option maxRecDepth 100000 in
/-- C18 on the code, for the 41 tokens `9, 1, ..., 40`: the hash recorded for the window
of 15 tokens at index 0 is the from-scratch hash, the hash recorded for the window at
index 1 is not, and it differs from the hash recorded for the same 15 tokens at index 0
of the sequence `1, ..., 40`.  The update of the short tier uses the multiplier `31^75`
computed for the long tier, not `31^14`. -/
theorem short_rolling_hash_not_window_hash :
    (short_hashes shifted_record.tokens)[0]? =
      some (scratch_hash shifted_record.tokens 0 15) ∧
    (short_hashes shifted_record.tokens)[1]? ≠
      some (scratch_hash shifted_record.tokens 1 15) ∧
    window shifted_record.tokens 1 15 = window source_record.tokens 0 15 ∧
    (short_hashes shifted_record.tokens)[1]? ≠ (short_hashes source_record.tokens)[0]? ∧
    wrap (31 ^ 75) ≠ wrap (31 ^ 14) :=
  ⟨by decide, by decide, by decide, by decide, by decide⟩

theorem mem_window_hashes_iff (t : List Int) (len : Nat) (h : Int) :
    h ∈ window_hashes t len ↔ ∃ i, i + len ≤ t.length ∧ h = scratch_hash t i len := by
  unfold window_hashes
  rw [List.mem_map]
  constructor
  · rintro ⟨w, hw, rfl⟩
    obtain ⟨i, hi, rfl⟩ := mem_windows.mp hw
    exact ⟨i, hi, window_hash_eq_scratch_hash t i len hi⟩
  · rintro ⟨i, hi, rfl⟩
    exact ⟨window t i len, mem_windows.mpr ⟨i, hi, rfl⟩,
      window_hash_eq_scratch_hash t i len hi⟩

/-- C19: on a sequence of at least 15 tokens `compute_rolling_hash(t, 15)` returns a set
whose members are exactly the from-scratch polynomial hashes of the windows of 15
tokens of `t`, one for each index `i` with `i + 15 <= |t|`. -/
theorem compute_rolling_hash_is_set_of_window_hashes (t : List Int)
    (ht : 15 ≤ t.length) :
    ∃ s, compute_rolling_hash t 15 = some s ∧ s.Nodup ∧
      ∀ h, h ∈ s ↔ ∃ i, i + 15 ≤ t.length ∧ h = scratch_hash t i 15 := by
  obtain ⟨s, hs, hnodup, hmem⟩ := compute_rolling_hash_spec t ht
  refine ⟨s, hs, hnodup, fun h => ?_⟩
  rw [hmem]
  exact mem_window_hashes_iff t 15 h

set_option maxRecDepth 100000 in
/-- Witness for C19: the sequence `1, ..., 17` has three windows of 15 tokens. -/
theorem compute_rolling_hash_is_set_of_window_hashes_witness :
    compute_rolling_hash (token_range 1 17) 15 =
      some [scratch_hash (token_range 1 17) 0 15, scratch_hash (token_range 1 17) 1 15,
        scratch_hash (token_range 1 17) 2 15] ∧
    ∃ s, compute_rolling_hash (token_range 1 17) 15 = some s ∧ s.Nodup ∧
      ∀ h, h ∈ s ↔ ∃ i, i + 15 ≤ (token_range 1 17).length ∧
        h = scratch_hash (token_range 1 17) i 15 :=
  ⟨by decide, compute_rolling_hash_is_set_of_window_hashes (token_range 1 17) (by decide)⟩

/-- The first loop of `compute_rolling_hash` reads `tokens[i]` for every `i < length`:
on a shorter sequence it reads outside the vector. -/
theorem init_hash_power_short (tokens : List Int) (len : Nat) (h : tokens.length < len) :
    init_hash_power tokens len = none := by
  unfold init_hash_power
  induction len with
  | zero => omega
  | succ k ih =>
    rw [List.range_succ, List.foldlM_append]
    rcases Nat.lt_or_ge tokens.length k with hk | hk
    · rw [ih hk]
      rfl
    · have hk2 : k = tokens.length := by omega
      have hfirst := init_hash_power_eq tokens k (by omega)
      unfold init_hash_power at hfirst
      rw [hfirst]
      simp [List.getElem?_eq_none (Nat.le_of_eq hk2.symm)]

theorem compute_rolling_hash_short (tokens : List Int) (h : tokens.length < 15) :
    compute_rolling_hash tokens 15 = none := by
  unfold compute_rolling_hash
  rw [init_hash_power_short tokens 15 h]

set_option maxRecDepth 100000 in
/-- C20 on the code: for the sequence `1, 2, 3` the first loop of `compute_rolling_hash`
reads `tokens[3]`, outside the vector, so the helper returns no (empty) set, and
neither `check_patchwork` on a short new sequence or with a short prior nor
`check_plagiarism` on a short new record has a defined result. -/
theorem short_sequence_read_out_of_bounds :
    ([1, 2, 3] : List Int)[3]? = none ∧
    compute_rolling_hash [1, 2, 3] 15 = none ∧
    (∀ order : List Int → List Int, check_patchwork order [1, 2, 3] [] = none) ∧
    (∀ order : List Int → List Int,
      check_patchwork order source_record.tokens [⟨handle 7, [1, 2, 3], 0⟩] = none) ∧
    (∀ order : List Int → List Int,
      check_plagiarism order (checker_of [] []) ⟨handle 7, [1, 2, 3], 0⟩ = none) :=
  ⟨by decide, by decide, fun _ => by rfl, fun _ => by rfl, fun _ => by rfl⟩

/-! ## The worker: batches -/

theorem process_batch_cons (order : List Int → List Int) (c : Checker)
    (r : SubmissionData) (rest : List SubmissionData) :
    process_batch order c (r :: rest) =
      match check_plagiarism order c r with
      | none => none
      | some out =>
        match process_batch order out.checker rest with
        | none => none
        | some out2 => some ⟨out.flagged ++ out2.flagged, out2.checker⟩ := rfl

theorem worker_rounds_cons (sort : List SubmissionData → List SubmissionData)
    (order : List Int → List Int) (c : Checker) (b : List SubmissionData)
    (later : List (List SubmissionData)) :
    worker_rounds sort order c (b :: later) =
      match process_batch order c (sort b) with
      | none => none
      | some out =>
        match worker_rounds sort order out.checker later with
        | none => none
        | some out2 => some ⟨out.flagged ++ out2.flagged, out2.checker⟩ := rfl

/-- Processing a batch that is the concatenation of two lists is processing the first
list and then the second. -/
theorem process_batch_append (order : List Int → List Int) (c : Checker)
    (l1 l2 : List SubmissionData) :
    process_batch order c (l1 ++ l2) =
      match process_batch order c l1 with
      | none => none
      | some out =>
        match process_batch order out.checker l2 with
        | none => none
        | some out2 => some ⟨out.flagged ++ out2.flagged, out2.checker⟩ := by
  induction l1 generalizing c with
  | nil =>
    have h0 : process_batch order c [] = some ⟨[], c⟩ := rfl
    rw [List.nil_append, h0]
    simp only [List.nil_append]
    cases process_batch order c l2 <;> rfl
  | cons r rest ih =>
    rw [List.cons_append, process_batch_cons, process_batch_cons]
    cases hr : check_plagiarism order c r with
    | none => rfl
    | some out =>
      simp only []
      rw [ih out.checker]
      cases h1 : process_batch order out.checker rest with
      | none => rfl
      | some out1 =>
        simp only []
        cases h2 : process_batch order out1.checker l2 with
        | none => rfl
        | some out2 => simp only [List.append_assoc]

/-- Successive rounds of the worker process the concatenation of the sorted batches. -/
theorem worker_rounds_eq (sort : List SubmissionData → List SubmissionData)
    (order : List Int → List Int) (c : Checker) (batches : List (List SubmissionData)) :
    worker_rounds sort order c batches =
      process_batch order c (batches.map sort).flatten := by
  induction batches generalizing c with
  | nil => rfl
  | cons b later ih =>
    rw [worker_rounds_cons, List.map_cons, List.flatten_cons, process_batch_append]
    cases process_batch order c (sort b) with
    | none => rfl
    | some out =>
      simp only []
      rw [ih out.checker]

/-- A list in comparator order whose timestamps are pairwise distinct is in strictly
increasing order of timestamps. -/
theorem strictly_sorted_of_sorted {l : List SubmissionData}
    (hs : l.Pairwise (fun a b => ¬ b.timestamp < a.timestamp))
    (hd : (l.map (fun r => r.timestamp)).Nodup) :
    l.Pairwise (fun a b => a.timestamp < b.timestamp) := by
  rw [List.Nodup, List.pairwise_map] at hd
  exact (hs.and hd).imp (fun {a b} h => lt_of_le_of_ne (not_lt.mp h.1) h.2)

/-- Two lists that are rearrangements of each other, both in comparator order and with
pairwise distinct timestamps, are equal. -/
theorem eq_of_perm_of_sorted_timestamps {l1 l2 : List SubmissionData}
    (hp : l1.Perm l2)
    (h1 : l1.Pairwise (fun a b => ¬ b.timestamp < a.timestamp))
    (h2 : l2.Pairwise (fun a b => ¬ b.timestamp < a.timestamp))
    (hd : (l2.map (fun r => r.timestamp)).Nodup) : l1 = l2 := by
  have hd1 : (l1.map (fun r => r.timestamp)).Nodup :=
    (hp.map (fun r => r.timestamp)).nodup_iff.mpr hd
  have s1 := strictly_sorted_of_sorted h1 hd1
  have s2 := strictly_sorted_of_sorted h2 hd
  haveI : IsAntisymm SubmissionData (fun a b => a.timestamp < b.timestamp) :=
    ⟨fun a b hab hba => absurd hab (lt_asymm hba)⟩
  exact List.eq_of_perm_of_sorted hp s1 s2

theorem sort_eq_of_perm {sort : List SubmissionData → List SubmissionData}
    (hsort : SortsByTimestamp sort) {l1 l2 : List SubmissionData} (hp : l1.Perm l2)
    (hd : (l2.map (fun r => r.timestamp)).Nodup) : sort l1 = sort l2 :=
  eq_of_perm_of_sorted_timestamps (((hsort.perm l1).trans hp).trans (hsort.perm l2).symm)
    (hsort.sorted l1) (hsort.sorted l2)
    (((hsort.perm l2).map (fun r => r.timestamp)).nodup_iff.mpr hd)

theorem sort_by_timestamp_contract : SortsByTimestamp sort_by_timestamp := by
  haveI : IsTotal SubmissionData (fun a b => a.timestamp ≤ b.timestamp) :=
    ⟨fun a b => le_total a.timestamp b.timestamp⟩
  haveI : IsTrans SubmissionData (fun a b => a.timestamp ≤ b.timestamp) :=
    ⟨fun a b c hab hbc => le_trans hab hbc⟩
  constructor
  · intro l
    exact List.perm_insertionSort _ l
  · intro l
    have h := List.sorted_insertionSort (fun a b : SubmissionData => a.timestamp ≤ b.timestamp) l
    exact h.imp (fun {a b} hab => not_lt.mpr hab)

theorem flatten_map_sort_perm {sort : List SubmissionData → List SubmissionData}
    (hsort : SortsByTimestamp sort) (batches : List (List SubmissionData)) :
    (batches.map sort).flatten.Perm batches.flatten := by
  induction batches with
  | nil => exact List.Perm.refl _
  | cons b later ih =>
    rw [List.map_cons, List.flatten_cons, List.flatten_cons]
    exact (hsort.perm b).append ih

theorem flatten_map_sort_sorted {sort : List SubmissionData → List SubmissionData}
    (hsort : SortsByTimestamp sort) (batches : List (List SubmissionData))
    (hordered : batches.Pairwise
      (fun b1 b2 => ∀ x ∈ b1, ∀ y ∈ b2, x.timestamp < y.timestamp)) :
    (batches.map sort).flatten.Pairwise (fun a b => ¬ b.timestamp < a.timestamp) := by
  rw [List.pairwise_flatten]
  constructor
  · intro l hl
    obtain ⟨b, -, rfl⟩ := List.mem_map.mp hl
    exact hsort.sorted b
  · rw [List.pairwise_map]
    refine hordered.imp ?_
    intro b1 b2 h x hx y hy
    exact not_lt.mpr (le_of_lt (h x ((hsort.perm b1).mem_iff.mp hx) y
      ((hsort.perm b2).mem_iff.mp hy)))

set_option maxRecDepth 100000 in
/-- C11 fails when the batches are not drained in timestamp order: `late_record` is
drained and processed before `early_record`, which was stamped 2000 ms earlier but
pushed later; then both are flagged and the late record is stored, whereas in
timestamp order only the late record is flagged and the early record is stored. -/
theorem batches_out_of_timestamp_order :
    ([late_record, early_record].map (fun r => r.timestamp)).Nodup ∧
    worker_rounds sort_by_timestamp id (checker_of [] []) [[late_record], [early_record]] =
      some ⟨[late_record.submission, early_record.submission],
        checker_of [] [late_record]⟩ ∧
    process_batch id (checker_of [] []) (sort_by_timestamp [late_record, early_record]) =
      some ⟨[late_record.submission], checker_of [] [early_record]⟩ :=
  ⟨by decide, by decide, by decide⟩

/-- C11 as amended: for submissions with pairwise distinct timestamps that are drained
in successive batches, in any arrival order, such that every record of an earlier batch
has a smaller timestamp than every record of a later batch, the flag calls and the
final checker are those of `check_plagiarism` run on the submissions one by one in
ascending timestamp order. -/
theorem ordered_batches_as_sequential (sort : List SubmissionData → List SubmissionData)
    (hsort : SortsByTimestamp sort) (order : List Int → List Int) (c : Checker)
    (batches : List (List SubmissionData)) (submissions : List SubmissionData)
    (hperm : batches.flatten.Perm submissions)
    (hdistinct : (submissions.map (fun r => r.timestamp)).Nodup)
    (hordered : batches.Pairwise
      (fun b1 b2 => ∀ x ∈ b1, ∀ y ∈ b2, x.timestamp < y.timestamp)) :
    worker_rounds sort order c batches = process_batch order c (sort submissions) := by
  rw [worker_rounds_eq]
  congr 1
  exact eq_of_perm_of_sorted_timestamps
    (((flatten_map_sort_perm hsort batches).trans hperm).trans (hsort.perm submissions).symm)
    (flatten_map_sort_sorted hsort batches hordered) (hsort.sorted submissions)
    (((hsort.perm submissions).map (fun r => r.timestamp)).nodup_iff.mpr hdistinct)

set_option maxRecDepth 100000 in
/-- Witness for the amended C11: the two records arrive in one batch, the late record
first; the outcome is that of the timestamp order. -/
theorem ordered_batches_as_sequential_witness :
    worker_rounds sort_by_timestamp id (checker_of [] []) [[late_record, early_record]] =
      process_batch id (checker_of [] []) (sort_by_timestamp [early_record, late_record]) ∧
    process_batch id (checker_of [] []) (sort_by_timestamp [early_record, late_record]) =
      some ⟨[late_record.submission], checker_of [] [early_record]⟩ :=
  ⟨ordered_batches_as_sequential sort_by_timestamp sort_by_timestamp_contract id
      (checker_of [] []) [[late_record, early_record]] [early_record, late_record]
      (by decide) (by decide) (by decide),
    by decide⟩

theorem engine_step_worker_check (sort : List SubmissionData → List SubmissionData)
    (order : List Int → List Int) (e : Engine) (r : SubmissionData)
    (rest : List SubmissionData) (hex : e.exited = false) (hb : e.current_batch = r :: rest) :
    engine_step sort order e Event.worker =
      match check_plagiarism order e.checker r with
      | none => none
      | some out => some { e with
          checker := out.checker
          current_batch := rest
          checked := e.checked ++ [r]
          flagged := e.flagged ++ out.flagged } := by
  simp only [engine_step, hex, hb, Bool.false_eq_true, if_false]

theorem engine_step_worker_drain (sort : List SubmissionData → List SubmissionData)
    (order : List Int → List Int) (e : Engine) (hex : e.exited = false)
    (hb : e.current_batch = []) (hq : e.checker.queue_ ≠ []) :
    engine_step sort order e Event.worker =
      some { e with
        checker := { e.checker with queue_ := [] }
        current_batch := sort e.checker.queue_ } := by
  have hq2 : e.checker.queue_.isEmpty = false := by
    cases hl : e.checker.queue_ with
    | nil => exact absurd hl hq
    | cons a l => rfl
  simp only [engine_step, hex, hb, hq2, Bool.false_eq_true, if_false, Bool.false_and,
    Bool.and_false]

theorem engine_run_cons (sort : List SubmissionData → List SubmissionData)
    (order : List Int → List Int) (e : Engine) (event : Event) (rest : List Event) :
    engine_run sort order e (event :: rest) =
      match engine_step sort order e event with
      | none => none
      | some e2 => engine_run sort order e2 rest := rfl

/-- The worker steps that pass the records of the drained batch to `check_plagiarism`,
one by one. -/
theorem engine_run_current_batch (sort : List SubmissionData → List SubmissionData)
    (order : List Int → List Int) (l : List SubmissionData) (e : Engine)
    (hex : e.exited = false) (hb : e.current_batch = l) :
    engine_run sort order e (List.replicate l.length Event.worker) =
      (l.foldlM
        (fun (acc : Outcome) r => (check_plagiarism order acc.checker r).map
          (fun out => (⟨acc.flagged ++ out.flagged, out.checker⟩ : Outcome)))
        ⟨e.flagged, e.checker⟩).map
        (fun acc => { e with
          checker := acc.checker
          current_batch := []
          checked := e.checked ++ l
          flagged := acc.flagged }) := by
  induction l generalizing e with
  | nil =>
    simp only [List.length_nil, List.replicate_zero, List.foldlM_nil, List.append_nil]
    cases e
    simp only [Engine.mk.injEq] at hb ⊢
    subst hb
    rfl
  | cons r rest ih =>
    rw [List.length_cons, List.replicate_succ, engine_run_cons,
      engine_step_worker_check sort order e r rest hex hb, List.foldlM_cons]
    cases hc : check_plagiarism order e.checker r with
    | none => rfl
    | some out =>
      simp only [Option.map_some', Option.some_bind, Option.bind_eq_bind]
      rw [ih (Engine.mk out.checker rest e.exited e.submitted (e.checked ++ [r])
        (e.flagged ++ out.flagged)) hex rfl]
      simp only [List.append_assoc, List.singleton_append]

theorem process_batch_eq_foldlM (order : List Int → List Int) (l : List SubmissionData)
    (flagged : List submission_t) (c : Checker) :
    l.foldlM
        (fun (acc : Outcome) r => (check_plagiarism order acc.checker r).map
          (fun out => (⟨acc.flagged ++ out.flagged, out.checker⟩ : Outcome)))
        ⟨flagged, c⟩ =
      (process_batch order c l).map (fun out => ⟨flagged ++ out.flagged, out.checker⟩) := by
  induction l generalizing flagged c with
  | nil =>
    simp only [List.foldlM_nil]
    change _ = some _
    simp
  | cons r rest ih =>
    rw [List.foldlM_cons, process_batch_cons]
    cases hc : check_plagiarism order c r with
    | none => rfl
    | some out =>
      simp only [Option.map_some', Option.some_bind, Option.bind_eq_bind]
      rw [ih]
      cases process_batch order out.checker rest with
      | none => rfl
      | some out2 => simp

/-- C12: from the top of the worker's loop with a non-empty queue, the next actions of the
worker drain the queue and pass to `check_plagiarism`, one by one, the records of
`sort batch`: these are the records logged as checked, and the flag calls and the checker
are those of the successive calls of `check_plagiarism` on them.  The sequence is a
rearrangement of the drained batch in non-decreasing timestamp order; hence a queue that
holds the same records with pairwise distinct timestamps in another arrival order leads
to the same state: the same records checked in the same order, the same flag calls and
the same History. -/
theorem sorted_batch_processed (sort : List SubmissionData → List SubmissionData)
    (hsort : SortsByTimestamp sort) (order : List Int → List Int) (e : Engine)
    (batch : List SubmissionData) (hq : e.checker.queue_ = batch) (hne : batch ≠ [])
    (hb : e.current_batch = []) (hex : e.exited = false) :
    engine_run sort order e (List.replicate (batch.length + 1) Event.worker) =
      ((sort batch).foldlM
        (fun (acc : Outcome) r => (check_plagiarism order acc.checker r).map
          (fun out => (⟨acc.flagged ++ out.flagged, out.checker⟩ : Outcome)))
        ⟨e.flagged, { e.checker with queue_ := [] }⟩).map
        (fun acc => { e with
          checker := acc.checker
          checked := e.checked ++ sort batch
          flagged := acc.flagged }) ∧
    worker_rounds sort order e.checker [batch] =
      (sort batch).foldlM
        (fun (acc : Outcome) r => (check_plagiarism order acc.checker r).map
          (fun out => (⟨acc.flagged ++ out.flagged, out.checker⟩ : Outcome)))
        ⟨[], e.checker⟩ ∧
    (sort batch).Perm batch ∧
    (sort batch).Pairwise (fun a b => a.timestamp ≤ b.timestamp) ∧
    ∀ batch2 : List SubmissionData, batch2.Perm batch →
      (batch.map (fun r => r.timestamp)).Nodup →
      engine_run sort order { e with checker := { e.checker with queue_ := batch2 } }
          (List.replicate (batch2.length + 1) Event.worker) =
        engine_run sort order e (List.replicate (batch.length + 1) Event.worker) := by
  have hmain : ∀ (e2 : Engine) (b : List SubmissionData), e2.checker.queue_ = b → b ≠ [] →
      e2.current_batch = [] → e2.exited = false →
      engine_run sort order e2 (List.replicate (b.length + 1) Event.worker) =
        ((sort b).foldlM
          (fun (acc : Outcome) r => (check_plagiarism order acc.checker r).map
            (fun out => (⟨acc.flagged ++ out.flagged, out.checker⟩ : Outcome)))
          ⟨e2.flagged, { e2.checker with queue_ := [] }⟩).map
          (fun acc => { e2 with
            checker := acc.checker
            checked := e2.checked ++ sort b
            flagged := acc.flagged }) := by
    intro e2 b hq2 hne2 hb2 hex2
    rw [List.replicate_succ, engine_run_cons,
      engine_step_worker_drain sort order e2 hex2 hb2 (by rw [hq2]; exact hne2)]
    simp only []
    subst hq2
    rw [← (hsort.perm e2.checker.queue_).length_eq,
      engine_run_current_batch sort order (sort e2.checker.queue_)
        (Engine.mk { e2.checker with queue_ := [] } (sort e2.checker.queue_) e2.exited
          e2.submitted e2.checked e2.flagged) hex2 rfl]
    simp only [hb2]
  refine ⟨hmain e batch hq hne hb hex, ?_, hsort.perm batch,
    (hsort.sorted batch).imp (fun {a b} h => not_lt.mp h), ?_⟩
  · rw [worker_rounds_eq, process_batch_eq_foldlM]
    simp only [List.map_cons, List.map_nil, List.flatten_cons, List.flatten_nil,
      List.append_nil, List.nil_append]
    cases process_batch order e.checker (sort batch) <;> rfl
  · intro batch2 hp hd
    rw [hmain e batch hq hne hb hex,
      hmain { e with checker := { e.checker with queue_ := batch2 } } batch2 rfl
        (fun h0 => hne (by rw [h0] at hp; exact hp.symm.eq_nil)) hb hex,
      sort_eq_of_perm hsort hp hd]

set_option maxRecDepth 100000 in
/-- Witness for C12: the queue holds the late record and then the early record; the worker
passes the early record and then the late record to `check_plagiarism`, the late record is
flagged and the early record is stored. -/
theorem sorted_batch_processed_witness :
    engine_run sort_by_timestamp id queued_engine
        (List.replicate ([late_record, early_record].length + 1) Event.worker) =
      some { checker := ⟨[], [early_record], [], false⟩
             current_batch := []
             exited := false
             submitted := [late_record, early_record]
             checked := [early_record, late_record]
             flagged := [late_record.submission] } :=
  ((sorted_batch_processed sort_by_timestamp sort_by_timestamp_contract id queued_engine
    [late_record, early_record] rfl (by decide) rfl rfl).1).trans (by decide)

/-! ## The worker: interleavings -/

theorem check_plagiarism_checker_cases (order : List Int → List Int) (c : Checker)
    (n : SubmissionData) (out : Outcome) (h : check_plagiarism order c n = some out) :
    out.checker = c ∨ out.checker = { c with submissions_ := c.submissions_ ++ [n] } := by
  unfold check_plagiarism at h
  obtain ⟨r, hr⟩ := base_loop_isSome n c.base_submissions_
  rw [hr] at h
  cases r with
  | true =>
    simp only [Option.some.injEq] at h
    subst h
    exact Or.inl rfl
  | false =>
    simp only [] at h
    rcases history_loop_cases n c.submissions_ [] with ⟨calls, hc⟩ | hc
    · rw [hc] at h
      simp only [Option.some.injEq] at h
      subst h
      exact Or.inl rfl
    · rw [hc] at h
      simp only [] at h
      cases hp : check_patchwork order n.tokens ([] ++ c.submissions_) with
      | none =>
        rw [hp] at h
        cases h
      | some b =>
        rw [hp] at h
        simp only [Option.some.injEq] at h
        subst h
        exact Or.inr rfl

theorem check_plagiarism_queue (order : List Int → List Int) (c : Checker)
    (n : SubmissionData) (out : Outcome) (h : check_plagiarism order c n = some out) :
    out.checker.queue_ = c.queue_ ∧ out.checker.stop_thread_ = c.stop_thread_ := by
  rcases check_plagiarism_checker_cases order c n out h with h1 | h1 <;> rw [h1] <;>
    exact ⟨rfl, rfl⟩

theorem engine_step_worker_cases (sort : List SubmissionData → List SubmissionData)
    (order : List Int → List Int) (e e2 : Engine)
    (h : engine_step sort order e Event.worker = some e2) :
    e.exited = false ∧
      ((∃ r rest out, e.current_batch = r :: rest ∧
          check_plagiarism order e.checker r = some out ∧
          e2 = { e with
            checker := out.checker
            current_batch := rest
            checked := e.checked ++ [r]
            flagged := e.flagged ++ out.flagged }) ∨
        (e.current_batch = [] ∧ e.checker.stop_thread_ = true ∧ e.checker.queue_ = [] ∧
          e2 = { e with exited := true }) ∨
        (e.current_batch = [] ∧ e.checker.queue_ ≠ [] ∧
          e2 = { e with
            checker := { e.checker with queue_ := [] }
            current_batch := sort e.checker.queue_ })) := by
  simp only [engine_step] at h
  cases hex : e.exited with
  | true => simp [hex] at h
  | false =>
    refine ⟨rfl, ?_⟩
    simp only [hex, Bool.false_eq_true, if_false] at h
    cases hb : e.current_batch with
    | cons r rest =>
      left
      rw [hb] at h
      simp only [] at h
      cases hc : check_plagiarism order e.checker r with
      | none =>
        rw [hc] at h
        cases h
      | some out =>
        rw [hc] at h
        simp only [Option.some.injEq] at h
        exact ⟨r, rest, out, rfl, hc, h.symm⟩
    | nil =>
      right
      rw [hb] at h
      simp only [] at h
      cases hq : e.checker.queue_ with
      | nil =>
        left
        cases hs : e.checker.stop_thread_ with
        | false => simp [hq, hs] at h
        | true =>
          simp [hq, hs] at h
          exact ⟨rfl, rfl, rfl, h.symm⟩
      | cons q qs =>
        right
        simp [hq] at h
        refine ⟨rfl, by simp, ?_⟩
        rw [← h]

theorem engine_invariant_init (base : List SubmissionData) :
    engine_invariant (engine_init base) :=
  ⟨List.Perm.refl _, fun h => by cases h⟩

theorem engine_invariant_step (sort : List SubmissionData → List SubmissionData)
    (hsort : SortsByTimestamp sort) (order : List Int → List Int) (e e2 : Engine)
    (event : Event) (hinv : engine_invariant e)
    (h : engine_step sort order e event = some e2) : engine_invariant e2 := by
  obtain ⟨hperm, hexit⟩ := hinv
  cases event with
  | add_submission record =>
    simp only [engine_step] at h
    cases hs : e.checker.stop_thread_ with
    | true => simp [hs] at h
    | false =>
      simp only [hs, Bool.false_eq_true, if_false, Option.some.injEq] at h
      subst h
      refine ⟨?_, ?_⟩
      · show (e.submitted ++ [record]).Perm
          (e.checked ++ e.current_batch ++ (e.checker.queue_ ++ [record]))
        rw [← List.append_assoc]
        exact hperm.append_right [record]
      · intro hex
        have := (hexit hex).1
        rw [hs] at this
        cases this
  | destructor =>
    simp only [engine_step, Option.some.injEq] at h
    subst h
    exact ⟨hperm, fun hex => ⟨rfl, (hexit hex).2.1, (hexit hex).2.2⟩⟩
  | worker =>
    obtain ⟨hne, hcases⟩ := engine_step_worker_cases sort order e e2 h
    rcases hcases with ⟨r, rest, out, hb, hc, rfl⟩ | ⟨hb, hs, hq, rfl⟩ | ⟨hb, hq, rfl⟩
    · refine ⟨?_, ?_⟩
      · show e.submitted.Perm (e.checked ++ [r] ++ rest ++ out.checker.queue_)
        rw [(check_plagiarism_queue order e.checker r out hc).1]
        rw [hb] at hperm
        simpa using hperm
      · intro hex
        have hex2 : e.exited = true := hex
        rw [hne] at hex2
        cases hex2
    · exact ⟨hperm, fun _ => ⟨hs, hq, hb⟩⟩
    · refine ⟨?_, ?_⟩
      · show e.submitted.Perm (e.checked ++ sort e.checker.queue_ ++ [])
        rw [hb] at hperm
        rw [List.append_nil] at hperm ⊢
        exact hperm.trans ((hsort.perm e.checker.queue_).symm.append_left e.checked)
      · intro hex
        have hex2 : e.exited = true := hex
        rw [hne] at hex2
        cases hex2

theorem engine_invariant_run (sort : List SubmissionData → List SubmissionData)
    (hsort : SortsByTimestamp sort) (order : List Int → List Int) (events : List Event)
    (e e2 : Engine) (hinv : engine_invariant e)
    (h : engine_run sort order e events = some e2) : engine_invariant e2 := by
  induction events generalizing e with
  | nil =>
    simp only [engine_run, Option.some.injEq] at h
    subst h
    exact hinv
  | cons event rest ih =>
    simp only [engine_run] at h
    cases hs : engine_step sort order e event with
    | none =>
      rw [hs] at h
      cases h
    | some e1 =>
      rw [hs] at h
      exact ih e1 (engine_invariant_step sort hsort order e e1 event hinv hs) h

/-- C13: in every state reached by a schedule of submissions, stop request and worker
actions, the worker returns only when a stop is requested, the queue is empty, its
batch is finished and every submitted record has been passed to `check_plagiarism`;
when the queue is not empty at the top of its loop, stop requested or not, the worker
does not return but takes the whole queue as its next batch. -/
theorem worker_returns_only_when_drained (sort : List SubmissionData → List SubmissionData)
    (hsort : SortsByTimestamp sort) (order : List Int → List Int)
    (base : List SubmissionData) (events : List Event) (e e2 : Engine)
    (hrun : engine_run sort order (engine_init base) events = some e)
    (hstep : engine_step sort order e Event.worker = some e2) :
    (e2.exited = true →
      e.checker.stop_thread_ = true ∧ e.checker.queue_ = [] ∧ e.current_batch = [] ∧
        e.checked.Perm e.submitted) ∧
    (e.current_batch = [] → e.checker.queue_ ≠ [] →
      e2.exited = false ∧ e2.current_batch = sort e.checker.queue_ ∧
        e2.checker.queue_ = [] ∧ e2.checker.stop_thread_ = e.checker.stop_thread_) := by
  have hinv := engine_invariant_run sort hsort order events _ e
    (engine_invariant_init base) hrun
  obtain ⟨hne, hcases⟩ := engine_step_worker_cases sort order e e2 hstep
  rcases hcases with ⟨r, rest, out, hb, hc, rfl⟩ | ⟨hb, hs, hq, rfl⟩ | ⟨hb, hq, rfl⟩
  · refine ⟨fun hex => ?_, fun hb2 => ?_⟩
    · have hex2 : e.exited = true := hex
      rw [hne] at hex2
      cases hex2
    · rw [hb] at hb2
      cases hb2
  · refine ⟨fun _ => ⟨hs, hq, hb, ?_⟩, fun _ hq2 => absurd hq hq2⟩
    have hperm := hinv.1
    rw [hb, hq, List.append_nil, List.append_nil] at hperm
    exact hperm.symm
  · refine ⟨fun hex => ?_, fun _ _ => ⟨hne, rfl, rfl, rfl⟩⟩
    have hex2 : e.exited = true := hex
    rw [hne] at hex2
    cases hex2

set_option maxRecDepth 100000 in
/-- Witness for C13: two records are pushed just before the stop request; the worker
drains and checks both and only then returns. -/
theorem worker_returns_only_when_drained_witness :
    engine_run sort_by_timestamp id (engine_init []) shutdown_schedule =
      some shutdown_engine ∧
    engine_step sort_by_timestamp id shutdown_engine Event.worker =
      some { shutdown_engine with exited := true } ∧
    shutdown_engine.checked.Perm shutdown_engine.submitted :=
  have hrun : engine_run sort_by_timestamp id (engine_init []) shutdown_schedule =
      some shutdown_engine := by decide
  have hstep : engine_step sort_by_timestamp id shutdown_engine Event.worker =
      some { shutdown_engine with exited := true } := by decide
  ⟨hrun, hstep,
    ((worker_returns_only_when_drained sort_by_timestamp sort_by_timestamp_contract id []
      shutdown_schedule shutdown_engine _ hrun hstep).1 rfl).2.2.2⟩

theorem length_hash_values (tokens : List Int) (len : Nat) (power : Int) (hpos : 0 < len)
    (idxs : List Nat) (hidx : ∀ i ∈ idxs, i + len ≤ tokens.length) (hash : Int) :
    (hash_values tokens len power idxs hash).length = idxs.length := by
  induction idxs generalizing hash with
  | nil => rfl
  | cons i rest ih =>
    obtain ⟨h, hh⟩ := next_hash_isSome tokens len power i hash hpos
      (hidx i (List.mem_cons_self i rest))
    simp only [hash_values, hh, List.length_cons]
    rw [ih (fun k hk => hidx k (List.mem_cons_of_mem i hk))]

theorem length_long_hashes (t : List Int) :
    (long_hashes t).length = t.length + 1 - 75 := by
  unfold long_hashes
  rw [length_hash_values _ _ _ (by decide) _ (fun i hi => mem_window_starts.mp hi)]
  simp [window_starts, LONG_MATCH_LENGTH]

theorem length_short_hashes (t : List Int) :
    (short_hashes t).length = t.length + 1 - 15 := by
  unfold short_hashes
  rw [length_hash_values _ _ _ (by decide) _ (fun i hi => mem_window_starts.mp hi)]
  simp [window_starts, MIN_MATCH_LENGTH]

/-- C22: `is_plagiarized(t, t)` returns true exactly when `t` has at least 24 tokens, that
is at least 10 windows of 15 tokens. -/
theorem is_plagiarized_self (t : List Int) :
    is_plagiarized t t = some (decide (24 ≤ t.length)) := by
  rw [is_plagiarized_eq]
  congr 1
  have hcount : (short_hashes t).countP (fun h => decide (h ∈ short_hashes t)) =
      t.length + 1 - 15 := by
    rw [← length_short_hashes t, List.countP_eq_length]
    intro h hh
    simpa using hh
  rw [hcount]
  by_cases h24 : 24 ≤ t.length
  · have h10 : decide (REQUIRED_MATCHES ≤ t.length + 1 - 15) = true := by
      rw [decide_eq_true_iff]
      unfold REQUIRED_MATCHES
      omega
    rw [h10, Bool.or_true, decide_eq_true h24]
  · have h10 : decide (REQUIRED_MATCHES ≤ t.length + 1 - 15) = false := by
      rw [decide_eq_false_iff_not]
      unfold REQUIRED_MATCHES
      omega
    have hlong : long_hashes t = [] := by
      apply List.eq_nil_of_length_eq_zero
      rw [length_long_hashes]
      omega
    rw [h10, hlong, decide_eq_false h24]
    rfl

/-- C23: `is_plagiarized` always returns a result, so every index it reads lies inside
the vector read, whatever the lengths; and the result is false when the new sequence
has fewer than 24 tokens or the old one fewer than 15. -/
theorem is_plagiarized_short (new_tokens old_tokens : List Int) :
    (∃ r, is_plagiarized new_tokens old_tokens = some r) ∧
    (new_tokens.length < 24 ∨ old_tokens.length < 15 →
      is_plagiarized new_tokens old_tokens = some false) := by
  refine ⟨⟨_, is_plagiarized_eq new_tokens old_tokens⟩, fun hshort => ?_⟩
  rw [is_plagiarized_eq]
  congr 1
  rcases hshort with hnew | hold
  · have hlong : long_hashes new_tokens = [] := by
      apply List.eq_nil_of_length_eq_zero
      rw [length_long_hashes]
      omega
    have hcount : ¬ REQUIRED_MATCHES ≤
        (short_hashes new_tokens).countP (fun h => decide (h ∈ short_hashes old_tokens)) := by
      have hle := List.countP_le_length (fun h => decide (h ∈ short_hashes old_tokens))
        (l := short_hashes new_tokens)
      rw [length_short_hashes] at hle
      unfold REQUIRED_MATCHES
      omega
    simp [hlong, hcount]
  · have hlong : long_hashes old_tokens = [] := by
      apply List.eq_nil_of_length_eq_zero
      rw [length_long_hashes]
      omega
    have hshort : short_hashes old_tokens = [] := by
      apply List.eq_nil_of_length_eq_zero
      rw [length_short_hashes]
      omega
    simp [hlong, hshort, REQUIRED_MATCHES]

set_option maxRecDepth 100000 in
/-- Witness for C23: the 23 tokens `1, ..., 23` against the 80 tokens `1, ..., 80`, and
the 80 tokens against the 14 tokens `1, ..., 14`. -/
theorem is_plagiarized_short_witness :
    is_plagiarized (token_range 1 23) (token_range 1 80) = some false ∧
    is_plagiarized (token_range 1 80) (token_range 1 14) = some false :=
  ⟨(is_plagiarized_short (token_range 1 23) (token_range 1 80)).2 (Or.inl (by decide)),
    (is_plagiarized_short (token_range 1 80) (token_range 1 14)).2 (Or.inr (by decide))⟩

set_option maxRecDepth 100000 in
/-- C21 on the code: the new sequence `9, 1, ..., 40` and the single prior `1, ..., 40`,
both of at least 15 tokens, share 26 window hashes, `check_patchwork` on that single
prior returns true and `is_plagiarized` returns false, so `check_plagiarism` raises a
patchwork flag from one history record: the pairwise check rolls its hashes with the
multiplier `31^75` and misses the shared windows that the patchwork helper finds. -/
theorem single_prior_patchwork_without_pairwise_match :
    15 ≤ shifted_record.tokens.length ∧ 15 ≤ source_record.tokens.length ∧
    common_hash_count shifted_record.tokens [source_record] = 26 ∧
    check_patchwork id shifted_record.tokens [source_record] = some true ∧
    is_plagiarized shifted_record.tokens source_record.tokens = some false ∧
    check_plagiarism id (checker_of [] [source_record]) shifted_record =
      some ⟨[shifted_record.submission], checker_of [] [source_record, shifted_record]⟩ :=
  ⟨by decide, by decide, by decide, by decide, by decide, by decide⟩

end PlagiarismChecker

/-! # Theorems on the heap -/

namespace Lab05

namespace Heap

/-! ## Exchanging two entries of the array -/

theorem length_swap_store (l : List Int) (i j : Nat) :
    (swap_store l i j).length = l.length := by
  unfold swap_store
  rw [List.length_set, List.length_set]

theorem getD_swap_store (l : List Int) (i j k : Nat) (hi : i < l.length)
    (hj : j < l.length) :
    (swap_store l i j).getD k 0 = l.getD (swap_index i j k) 0 := by
  unfold swap_store swap_index
  simp only [List.getD_eq_getElem?_getD, List.getElem?_set, List.length_set]
  by_cases h1 : k = j
  · subst h1
    simp [hj]
  · by_cases h2 : k = i
    · subst h2
      simp [h1, Ne.symm h1, hi]
    · simp [h1, h2, Ne.symm h1, Ne.symm h2]

theorem swap_index_swap_index (i j k : Nat) : swap_index i j (swap_index i j k) = k := by
  unfold swap_index
  split_ifs <;> omega

theorem swap_index_lt {i j k n : Nat} (hi : i < n) (hj : j < n) (hk : k < n) :
    swap_index i j k < n := by
  unfold swap_index
  split_ifs <;> omega

theorem take_eq_map_getD (l : List Int) (n : Nat) (hn : n ≤ l.length) :
    l.take n = (List.range n).map (fun k => l.getD k 0) := by
  apply List.ext_getElem
  · simp [hn]
  · intro k h1 h2
    simp only [List.getElem_take, List.getElem_map, List.getElem_range]
    have hk : k < l.length := by
      rw [List.length_take] at h1
      omega
    simp [List.getD_eq_getElem?_getD, List.getElem?_eq_getElem hk]

theorem map_swap_index_perm (i j n : Nat) (hi : i < n) (hj : j < n) :
    ((List.range n).map (swap_index i j)).Perm (List.range n) := by
  have hinj : Function.Injective (swap_index i j) :=
    Function.LeftInverse.injective (swap_index_swap_index i j)
  rw [List.perm_ext_iff_of_nodup ((List.nodup_range n).map hinj) (List.nodup_range n)]
  intro x
  rw [List.mem_map, List.mem_range]
  constructor
  · rintro ⟨k, hk, rfl⟩
    exact swap_index_lt hi hj (List.mem_range.mp hk)
  · intro hx
    exact ⟨swap_index i j x, List.mem_range.mpr (swap_index_lt hi hj hx),
      swap_index_swap_index i j x⟩

/-- Exchanging two of the first `n` entries rearranges the first `n` entries. -/
theorem take_swap_store_perm (l : List Int) (i j n : Nat) (hi : i < n) (hj : j < n)
    (hn : n ≤ l.length) : ((swap_store l i j).take n).Perm (l.take n) := by
  rw [take_eq_map_getD _ n (by rw [length_swap_store]; exact hn), take_eq_map_getD l n hn]
  have h1 : (List.range n).map (fun k => (swap_store l i j).getD k 0) =
      ((List.range n).map (swap_index i j)).map (fun k => l.getD k 0) := by
    rw [List.map_map]
    apply List.map_congr_left
    intro k _
    exact getD_swap_store l i j k (by omega) (by omega)
  rw [h1]
  exact (map_swap_index_perm i j n hi hj).map _

theorem swap_eq (h : Heap) (i j : Nat) (hi : i < h.store.length) (hj : j < h.store.length) :
    h.swap i j = some ⟨swap_store h.store i j, h.sz⟩ := by
  unfold swap swap_store
  rw [List.getElem?_eq_getElem hi, List.getElem?_eq_getElem hj]
  simp [List.getD_eq_getElem?_getD, List.getElem?_eq_getElem hi, List.getElem?_eq_getElem hj]

/-! ## `heapify` -/

theorem child_of_parent {c i : Nat} (hc : 0 < c) (hp : parent c = i) :
    c = left i ∨ c = right i := by
  unfold parent at hp
  unfold left right
  omega

theorem parent_left (i : Nat) : parent (left i) = i := by
  unfold parent left
  omega

theorem parent_right (i : Nat) : parent (right i) = i := by
  unfold parent right
  omega

theorem parent_lt {c : Nat} (hc : 0 < c) : parent c < c := by
  unfold parent
  omega

/-- The index chosen by the two `if` statements of `heapify`: `i` or a child of `i`
inside the heap that holds more than `i`, and in any case an index that holds at least
as much as `i` and its children inside the heap. -/
theorem largest_of_spec (h : Heap) (i : Nat) (hwf : h.sz ≤ h.store.length) :
    ∃ L, largest_of h i = some L ∧
      (L = i ∨ ((L = left i ∨ L = right i) ∧ L < h.sz ∧
        h.store.getD i 0 < h.store.getD L 0)) ∧
      (left i < h.sz → h.store.getD (left i) 0 ≤ h.store.getD L 0) ∧
      (right i < h.sz → h.store.getD (right i) 0 ≤ h.store.getD L 0) := by
  have hget : ∀ k, k < h.sz → h.store[k]? = some (h.store.getD k 0) := by
    intro k hk
    have hk2 : k < h.store.length := by omega
    simp [List.getD_eq_getElem?_getD, List.getElem?_eq_getElem hk2]
  have hil : i < left i := by unfold left; omega
  have hlr : left i < right i := by unfold left right; omega
  unfold largest_of
  by_cases hl : left i < h.sz
  · rw [if_pos hl, hget _ hl, hget i (by omega)]
    simp only []
    by_cases hgt : h.store.getD (left i) 0 > h.store.getD i 0
    · rw [if_pos hgt]
      by_cases hr : right i < h.sz
      · rw [if_pos hr, hget _ hr, hget _ hl]
        simp only []
        by_cases hgt2 : h.store.getD (right i) 0 > h.store.getD (left i) 0
        · rw [if_pos hgt2]
          exact ⟨_, rfl, Or.inr ⟨Or.inr rfl, hr, by omega⟩, fun _ => by omega,
            fun _ => le_refl _⟩
        · rw [if_neg hgt2]
          exact ⟨_, rfl, Or.inr ⟨Or.inl rfl, hl, hgt⟩, fun _ => le_refl _,
            fun _ => by omega⟩
      · rw [if_neg hr]
        exact ⟨_, rfl, Or.inr ⟨Or.inl rfl, hl, hgt⟩, fun _ => le_refl _,
          fun hr2 => absurd hr2 hr⟩
    · rw [if_neg hgt]
      by_cases hr : right i < h.sz
      · rw [if_pos hr, hget _ hr, hget i (by omega)]
        simp only []
        by_cases hgt2 : h.store.getD (right i) 0 > h.store.getD i 0
        · rw [if_pos hgt2]
          exact ⟨_, rfl, Or.inr ⟨Or.inr rfl, hr, hgt2⟩, fun _ => by omega,
            fun _ => le_refl _⟩
        · rw [if_neg hgt2]
          exact ⟨_, rfl, Or.inl rfl, fun _ => by omega, fun _ => by omega⟩
      · rw [if_neg hr]
        exact ⟨_, rfl, Or.inl rfl, fun _ => by omega, fun hr2 => absurd hr2 hr⟩
  · rw [if_neg hl]
    simp only []
    have hr : ¬ right i < h.sz := by omega
    rw [if_neg hr]
    exact ⟨_, rfl, Or.inl rfl, fun hl2 => absurd hl2 hl, fun hr2 => absurd hr2 hr⟩

/-- After the exchange of `i` with the chosen child `L`, the array is in the state that
`heapify(L)` expects. -/
theorem down_ok_swap (l : List Int) (n i L : Nat) (hn : n ≤ l.length)
    (hok : down_ok l n i) (hchild : L = left i ∨ L = right i) (hL : L < n)
    (hgt : l.getD i 0 < l.getD L 0)
    (hleft : left i < n → l.getD (left i) 0 ≤ l.getD L 0)
    (hright : right i < n → l.getD (right i) 0 ≤ l.getD L 0) :
    down_ok (swap_store l i L) n L := by
  have hpL : parent L = i := by
    rcases hchild with h | h <;> rw [h]
    · exact parent_left i
    · exact parent_right i
  have hiL : i < L := by
    rcases hchild with h | h <;> rw [h]
    · unfold left; omega
    · unfold right; omega
  have hget : ∀ k, (swap_store l i L).getD k 0 = l.getD (swap_index i L k) 0 :=
    fun k => getD_swap_store l i L k (by omega) (by omega)
  have hsi : swap_index i L i = L := by unfold swap_index; split_ifs <;> omega
  have hsL : swap_index i L L = i := by unfold swap_index; split_ifs <;> omega
  have hso : ∀ k, k ≠ i → k ≠ L → swap_index i L k = k := by
    intro k h1 h2
    unfold swap_index
    split_ifs <;> omega
  refine ⟨?_, ?_⟩
  · intro c hc hc0 hpc
    rw [hget c, hget (parent c)]
    by_cases hpi : parent c = i
    · rw [hpi, hsi]
      by_cases hcL : c = L
      · rw [hcL, hsL]
        omega
      · have hci : c ≠ i := by
          have := parent_lt hc0
          omega
        rw [hso c hci hcL]
        rcases child_of_parent hc0 hpi with h | h
        · rw [h]
          exact hleft (h ▸ hc)
        · rw [h]
          exact hright (h ▸ hc)
    · rw [hso (parent c) hpi hpc]
      have hcL : c ≠ L := by
        intro h
        rw [h] at hpi
        exact hpi hpL
      by_cases hci : c = i
      · rw [hci, hsi]
        exact hok.2 (hci ▸ hc0) L hL (by omega) hpL
      · rw [hso c hci hcL]
        exact hok.1 c hc hc0 hpi
  · intro hL0 c hc hc0 hpc
    have hcL : c ≠ L := by
      have := parent_lt hc0
      omega
    have hci : c ≠ i := by
      have := parent_lt hc0
      omega
    rw [hget c, hget (parent L), hso c hci hcL, hpL, hsi]
    have h2 := hok.1 c hc hc0 (by omega)
    rw [hpc] at h2
    exact h2

/-- The recursion of `heapify`: called at index `i` with enough fuel on an array that
is a heap but for the children of `i`, it returns a heap with the same elements. -/
theorem heapify_spec (fuel : Nat) (i : Nat) (h : Heap) (hwf : h.sz ≤ h.store.length)
    (hi : i ≤ h.sz) (hfuel : h.sz < fuel + i) (hok : down_ok h.store h.sz i) :
    ∃ h2, heapify fuel i h = some h2 ∧ h2.sz = h.sz ∧
      h2.store.length = h.store.length ∧ is_max_heap h2 ∧
      (elements h2).Perm (elements h) := by
  induction fuel generalizing i h with
  | zero => omega
  | succ fuel ih =>
    obtain ⟨L, hL, hcases, hleft, hright⟩ := largest_of_spec h i hwf
    rw [heapify, hL]
    simp only []
    rcases hcases with rfl | ⟨hchild, hLsz, hgt⟩
    · rw [if_neg (by simp)]
      refine ⟨h, rfl, rfl, rfl, ?_, List.Perm.refl _⟩
      intro c hc hc0
      by_cases hpc : parent c = L
      · rcases child_of_parent hc0 hpc with hcl | hcr
        · rw [hpc, hcl]
          exact hleft (hcl ▸ hc)
        · rw [hpc, hcr]
          exact hright (hcr ▸ hc)
      · exact hok.1 c hc hc0 hpc
    · have hiL : i < L := by
        rcases hchild with h1 | h1 <;> rw [h1]
        · unfold left; omega
        · unfold right; omega
      rw [if_pos (by omega), swap_eq h i L (by omega) (by omega)]
      simp only []
      obtain ⟨h2, hrun, hsz, hlen, hheap, hperm⟩ :=
        ih L ⟨swap_store h.store i L, h.sz⟩
          (by rw [length_swap_store]; exact hwf) (le_of_lt hLsz) (by simp only []; omega)
          (down_ok_swap h.store h.sz i L hwf hok hchild hLsz hgt hleft hright)
      refine ⟨h2, hrun, hsz, ?_, hheap, ?_⟩
      · rw [hlen, length_swap_store]
      · exact hperm.trans (take_swap_store_perm h.store i L h.sz (by omega) hLsz hwf)

/-! ## `insert` -/

/-- After the exchange of `i` with its parent, which held less, the array is in the
state that the loop of `insert` expects at the parent. -/
theorem up_ok_swap (l : List Int) (n i : Nat) (hn : n ≤ l.length) (hi : i < n)
    (hi0 : 0 < i) (hok : up_ok l n i) (hlt : l.getD (parent i) 0 < l.getD i 0) :
    up_ok (swap_store l i (parent i)) n (parent i) := by
  have hq : parent i < i := parent_lt hi0
  have hget : ∀ k, (swap_store l i (parent i)).getD k 0 =
      l.getD (swap_index i (parent i) k) 0 :=
    fun k => getD_swap_store l i (parent i) k (by omega) (by omega)
  have hsi : swap_index i (parent i) i = parent i := by
    unfold swap_index; split_ifs <;> omega
  have hsq : swap_index i (parent i) (parent i) = i := by
    unfold swap_index; split_ifs <;> omega
  have hso : ∀ k, k ≠ i → k ≠ parent i → swap_index i (parent i) k = k := by
    intro k h1 h2
    unfold swap_index
    split_ifs <;> omega
  refine ⟨?_, ?_⟩
  · intro c hc hc0 hcq
    rw [hget c, hget (parent c)]
    by_cases hci : c = i
    · rw [hci, hsi, hsq]
      omega
    · rw [hso c hci hcq]
      by_cases hpq : parent c = parent i
      · rw [hpq, hsq]
        have h1 := hok.1 c hc hc0 hci
        rw [hpq] at h1
        omega
      · by_cases hpi : parent c = i
        · rw [hpi, hsi]
          exact hok.2 hi0 c hc hc0 hpi
        · rw [hso (parent c) hpi hpq]
          exact hok.1 c hc hc0 hci
  · intro hq0 c hc hc0 hpc
    have hpq : parent (parent i) < parent i := parent_lt hq0
    have hcq : c ≠ parent i := by
      have := parent_lt hc0
      omega
    rw [hget c, hget (parent (parent i)), hso (parent (parent i)) (by omega) (by omega)]
    have hqle := hok.1 (parent i) (by omega) hq0 (by omega)
    by_cases hci : c = i
    · rw [hci, hsi]
      exact hqle
    · rw [hso c hci hcq]
      have h1 := hok.1 c hc hc0 hci
      rw [hpc] at h1
      omega

/-- The loop of `insert`: started at index `i` with enough fuel on an array that is a
heap but for the pair of `i` and its parent, it ends with a heap of the same
elements. -/
theorem insert_loop_spec (fuel : Nat) (i : Nat) (h : Heap) (hwf : h.sz ≤ h.store.length)
    (hi : i < h.sz) (hfuel : i < fuel) (hok : up_ok h.store h.sz i) :
    ∃ h2, insert_loop fuel i h = some h2 ∧ h2.sz = h.sz ∧
      h2.store.length = h.store.length ∧ is_max_heap h2 ∧
      (elements h2).Perm (elements h) := by
  induction fuel generalizing i h with
  | zero => omega
  | succ fuel ih =>
    rw [insert_loop]
    by_cases hi0 : i > 0
    · have hq : parent i < i := parent_lt hi0
      have hget : ∀ k, k < h.sz → h.store[k]? = some (h.store.getD k 0) := by
        intro k hk
        have hk2 : k < h.store.length := by omega
        simp [List.getD_eq_getElem?_getD, List.getElem?_eq_getElem hk2]
      rw [if_pos hi0, hget _ (by omega), hget i hi]
      simp only []
      by_cases hlt : h.store.getD (parent i) 0 < h.store.getD i 0
      · rw [if_pos hlt, swap_eq h i (parent i) (by omega) (by omega)]
        simp only []
        obtain ⟨h2, hrun, hsz, hlen, hheap, hperm⟩ :=
          ih (parent i) ⟨swap_store h.store i (parent i), h.sz⟩
            (by rw [length_swap_store]; exact hwf) (by simp only []; omega) (by omega)
            (up_ok_swap h.store h.sz i hwf hi hi0 hok hlt)
        refine ⟨h2, hrun, hsz, ?_, hheap, ?_⟩
        · rw [hlen, length_swap_store]
        · exact hperm.trans
            (take_swap_store_perm h.store i (parent i) h.sz hi (by omega) hwf)
      · rw [if_neg hlt]
        refine ⟨h, rfl, rfl, rfl, ?_, List.Perm.refl _⟩
        intro c hc hc0
        by_cases hci : c = i
        · rw [hci]
          omega
        · exact hok.1 c hc hc0 hci
    · rw [if_neg hi0]
      refine ⟨h, rfl, rfl, rfl, ?_, List.Perm.refl _⟩
      intro c hc hc0
      exact hok.1 c hc hc0 (by omega)

theorem elements_append (append : Heap → Int → Heap) (happend : AppendsAtEnd append)
    (h : Heap) (v : Int) (hwf : h.sz ≤ h.store.length) :
    elements (append h v) = elements h ++ [v] := by
  unfold elements
  rw [take_eq_map_getD _ _ (happend.fits h v hwf), take_eq_map_getD _ _ hwf,
    happend.sz_append, List.range_succ, List.map_append, List.map_cons, List.map_nil]
  congr 1
  · apply List.map_congr_left
    intro k hk
    have hk2 := List.mem_range.mp hk
    rw [happend.getD_append h v k hwf (by omega), if_neg (by omega)]
  · rw [happend.getD_append h v h.sz hwf (le_refl _), if_pos rfl]

theorem append_at_end_contract : AppendsAtEnd append_at_end := by
  refine ⟨fun _ _ => rfl, ?_, ?_⟩
  · intro h v hwf
    unfold append_at_end
    simp only []
    by_cases hlt : h.sz < h.store.length
    · rw [if_pos hlt, List.length_set]
      omega
    · rw [if_neg hlt, List.length_append]
      simp
      omega
  · intro h v k hwf hk
    unfold append_at_end
    simp only []
    by_cases hlt : h.sz < h.store.length
    · rw [if_pos hlt]
      simp only [List.getD_eq_getElem?_getD, List.getElem?_set]
      by_cases hk : k = h.sz
      · subst hk
        simp [hlt]
      · simp [hk, Ne.symm hk]
    · rw [if_neg hlt]
      have hlen : h.store.length = h.sz := by omega
      simp only [List.getD_eq_getElem?_getD]
      by_cases hk : k = h.sz
      · subst hk
        rw [List.getElem?_append_right (by omega)]
        simp [hlen]
      · rw [if_neg hk, List.getElem?_append_left (by omega)]

theorem insert_spec (append : Heap → Int → Heap) (happend : AppendsAtEnd append)
    (h : Heap) (v : Int) (hwf : h.sz ≤ h.store.length) (hheap : is_max_heap h) :
    ∃ h2, insert append h v = some h2 ∧ h2.sz = h.sz + 1 ∧ h2.sz ≤ h2.store.length ∧
      is_max_heap h2 ∧ (elements h2).Perm (v :: elements h) := by
  have hwf1 := happend.fits h v hwf
  have hsz1 := happend.sz_append h v
  have hok : up_ok (append h v).store (append h v).sz h.sz := by
    refine ⟨?_, ?_⟩
    · intro c hc hc0 hcn
      have hp := parent_lt hc0
      rw [happend.getD_append h v c hwf (by omega),
        happend.getD_append h v (parent c) hwf (by omega), if_neg hcn, if_neg (by omega)]
      exact hheap c (by omega) hc0
    · intro _ c hc hc0 hpc
      unfold parent at hpc
      omega
  obtain ⟨h2, hrun, hsz, hlen, hh, hperm⟩ :=
    insert_loop_spec (append h v).sz h.sz (append h v) hwf1 (by omega) (by omega) hok
  refine ⟨h2, ?_, by omega, by omega, hh, ?_⟩
  · unfold insert
    rw [show (append h v).sz - 1 = h.sz by omega]
    exact hrun
  · rw [elements_append append happend h v hwf] at hperm
    exact hperm.trans (List.perm_append_singleton v (elements h))

/-! ## `max` and `deleteMax` -/

/-- In a heap no stored element exceeds `store[0]`. -/
theorem le_root (h : Heap) (hheap : is_max_heap h) (k : Nat) (hk : k < h.sz) :
    h.store.getD k 0 ≤ h.store.getD 0 0 := by
  induction k using Nat.strong_induction_on with
  | _ k ih =>
    rcases Nat.eq_zero_or_pos k with rfl | hpos
    · exact le_refl _
    · exact le_trans (hheap k hk hpos) (ih (parent k) (parent_lt hpos)
        (lt_trans (parent_lt hpos) hk))

theorem mem_elements (h : Heap) (hwf : h.sz ≤ h.store.length) (x : Int) :
    x ∈ elements h ↔ ∃ k < h.sz, x = h.store.getD k 0 := by
  unfold elements
  rw [take_eq_map_getD _ _ hwf, List.mem_map]
  constructor
  · rintro ⟨k, hk, rfl⟩
    exact ⟨k, List.mem_range.mp hk, rfl⟩
  · rintro ⟨k, hk, rfl⟩
    exact ⟨k, List.mem_range.mpr hk, rfl⟩

theorem max_spec (h : Heap) (hwf : h.sz ≤ h.store.length) (hpos : 0 < h.sz)
    (hheap : is_max_heap h) :
    h.max = some (h.store.getD 0 0) ∧ h.store.getD 0 0 ∈ elements h ∧
      ∀ x ∈ elements h, x ≤ h.store.getD 0 0 := by
  refine ⟨?_, ?_, ?_⟩
  · unfold max
    have h0 : 0 < h.store.length := by omega
    simp [List.getD_eq_getElem?_getD, List.getElem?_eq_getElem h0]
  · exact (mem_elements h hwf _).mpr ⟨0, hpos, rfl⟩
  · intro x hx
    obtain ⟨k, hk, rfl⟩ := (mem_elements h hwf x).mp hx
    exact le_root h hheap k hk

theorem deleteMax_spec (h : Heap) (hwf : h.sz ≤ h.store.length) (hpos : 0 < h.sz)
    (hheap : is_max_heap h) :
    ∃ h2, h.deleteMax = some h2 ∧ h2.sz = h.sz - 1 ∧ h2.sz ≤ h2.store.length ∧
      is_max_heap h2 ∧ (elements h2).Perm ((elements h).erase (h.store.getD 0 0)) := by
  obtain ⟨store, sz⟩ := h
  simp only [] at hwf hpos
  cases store with
  | nil => simp at hwf; omega
  | cons m tl =>
    have hlast : sz - 1 < (m :: tl).length := by omega
    have hok : down_ok ((m :: tl).set 0 ((m :: tl).getD (sz - 1) 0)) (sz - 1) 0 := by
      refine ⟨?_, fun h0 => absurd h0 (lt_irrefl 0)⟩
      intro c hc hc0 hpc
      have hmem := hheap c (by simp only []; omega) hc0
      simp only [] at hmem
      have hc1 : c ≠ 0 := by omega
      simp only [List.getD_eq_getElem?_getD] at hmem ⊢
      rw [List.getElem?_set_ne (Ne.symm hc1), List.getElem?_set_ne (Ne.symm hpc)]
      exact hmem
    obtain ⟨h2, hrun, hsz, hlen, hh, hperm⟩ :=
      heapify_spec sz 0 ⟨(m :: tl).set 0 ((m :: tl).getD (sz - 1) 0), sz - 1⟩
        (by simp only [List.length_set]; omega) (Nat.zero_le _) (by simp only []; omega) hok
    refine ⟨h2, ?_, hsz, ?_, hh, ?_⟩
    · unfold deleteMax
      simp only []
      rw [if_neg (by omega), List.getElem?_eq_getElem hlast]
      simp only [List.getElem?_cons_zero]
      rw [← hrun]
      simp [List.getD_eq_getElem?_getD, List.getElem?_eq_getElem hlast]
    · rw [hsz, hlen]
      simp only [List.length_set]
      omega
    · refine hperm.trans ?_
      unfold elements
      simp only [List.set_cons_zero, List.getD_cons_zero]
      obtain ⟨k, rfl⟩ : ∃ k, sz = k + 1 := ⟨sz - 1, by omega⟩
      simp only [Nat.add_sub_cancel, List.take_succ_cons, List.erase_cons_head]
      cases k with
      | zero => simp
      | succ k =>
        have hk : k < tl.length := by
          simp only [List.length_cons] at hwf
          omega
        rw [List.take_succ_cons, List.take_succ, List.getElem?_eq_getElem hk]
        simp only [List.getD_eq_getElem?_getD, List.getElem?_cons_succ,
          List.getElem?_eq_getElem hk, Option.getD_some, Option.toList]
        exact (List.perm_append_singleton _ _).symm

/-! ## The heap invariant -/

/-- C24: on a max-heap `store[0..sz)` inside the array, `insert(v)`, with any `append`
that meets its contract, returns a max-heap
of `sz + 1` elements that are the old elements and `v`; and when the heap is not empty,
`max()` returns a stored element that no stored element exceeds, and `deleteMax()`
returns a max-heap of `sz - 1` elements that are the old elements less one occurrence
of that maximum.  The loop of `insert` and the recursion of `heapify` end within the
fuel given. -/
theorem heap_operations (append : Heap → Int → Heap) (happend : AppendsAtEnd append)
    (h : Heap) (hwf : h.sz ≤ h.store.length) (hheap : is_max_heap h) :
    (∀ v, ∃ h2, insert append h v = some h2 ∧ h2.sz = h.sz + 1 ∧ h2.sz ≤ h2.store.length ∧
      is_max_heap h2 ∧ (elements h2).Perm (v :: elements h)) ∧
    (0 < h.sz → ∃ m h2, h.max = some m ∧ m ∈ elements h ∧ (∀ x ∈ elements h, x ≤ m) ∧
      h.deleteMax = some h2 ∧ h2.sz = h.sz - 1 ∧ h2.sz ≤ h2.store.length ∧
      is_max_heap h2 ∧ (elements h2).Perm ((elements h).erase m)) := by
  refine ⟨fun v => insert_spec append happend h v hwf hheap, fun hpos => ?_⟩
  obtain ⟨hmax, hmem, hle⟩ := max_spec h hwf hpos hheap
  obtain ⟨h2, hdel, hsz, hwf2, hh, hperm⟩ := deleteMax_spec h hwf hpos hheap
  exact ⟨_, h2, hmax, hmem, hle, hdel, hsz, hwf2, hh, hperm⟩

/-- Witness for C24: the heap `9, 7, 8, 3, 5, 6` in an array of eight entries; inserting
10 moves it to the root, and deleting the maximum leaves `8, 7, 6, 3, 5`. -/
theorem heap_operations_witness :
    is_max_heap sample ∧
    insert append_at_end sample 10 = some ⟨[10, 7, 9, 3, 5, 6, 8, 0], 7⟩ ∧
    sample.max = some 9 ∧
    sample.deleteMax = some ⟨[8, 7, 6, 3, 5, 6, 0, 0], 5⟩ ∧
    ((∀ v, ∃ h2, insert append_at_end sample v = some h2 ∧ h2.sz = sample.sz + 1 ∧
        h2.sz ≤ h2.store.length ∧ is_max_heap h2 ∧
        (elements h2).Perm (v :: elements sample)) ∧
      (0 < sample.sz → ∃ m h2, sample.max = some m ∧ m ∈ elements sample ∧
        (∀ x ∈ elements sample, x ≤ m) ∧ sample.deleteMax = some h2 ∧
        h2.sz = sample.sz - 1 ∧ h2.sz ≤ h2.store.length ∧ is_max_heap h2 ∧
        (elements h2).Perm ((elements sample).erase m))) :=
  ⟨by decide, by decide, by decide, by decide,
    heap_operations append_at_end append_at_end_contract sample (by decide) (by decide)⟩

end Heap

end Lab05
